import Mathlib

/-!
Verification of the incremental-build decision layer of `locator-yui`
(`lib/plugin.js`): the change-classification algorithm `_buildsInBundle`,
the module-metadata registry `_register`, the loader-metadata compiler
`_getLoaderData` with its client/server views, the attach helpers, and the
`bundleUpdated` pipeline entry point.

JavaScript objects used as string-keyed dictionaries are modelled as
association lists (`List (String × α)`) so that key-insertion order — which
the code relies on for iteration — is preserved.  The external shifter
checks (`_checkYUIModule`, `_checkBuildFile`) are parameters of the model,
as the spec treats them as collaborator interfaces returning either a
metadata record or a negative result.
-/

namespace LocatorYui

/-! ### Path primitives (model of node's `path` module, posix flavour) -/

/-- Model of node `path.basename`: strip trailing separators, then keep the
last path component. -/
def basename (p : String) : String :=
  let cs := p.toList
  let rev := cs.reverse.dropWhile (fun c => c = '/')
  if rev.isEmpty then
    if cs.isEmpty then "" else "/"
  else
    String.mk (rev.takeWhile (fun c => c ≠ '/')).reverse

/-- The extension of a base name: the suffix starting at the last dot,
empty when there is no dot or when the only dot starts the name. -/
def extnameOfBase (b : String) : String :=
  let cs := b.toList
  let ext := cs.reverse.takeWhile (fun c => c ≠ '.')
  if ext.length = cs.length then ""
  else if ext.length + 1 = cs.length then ""
  else String.mk ('.' :: ext.reverse)

/-- Model of node `path.extname`: the extension of the path's base name. -/
def extname (p : String) : String :=
  extnameOfBase (basename p)

/-- Model of node `path.dirname`: the path with its last component removed. -/
def dirname (p : String) : String :=
  let cs := p.toList
  let rev := (cs.reverse.dropWhile (fun c => c = '/')).dropWhile (fun c => c ≠ '/')
  let rev := rev.dropWhile (fun c => c = '/')
  if rev.isEmpty then
    if cs.head? = some '/' then "/" else "."
  else String.mk rev.reverse

/-- Model of the JavaScript test `s.indexOf(p) === 0`: `p` is a (string)
front segment of `s`. -/
def strHasFront (p s : String) : Bool :=
  p.toList.isPrefixOf s.toList

/-- `hasInfix needle hay`: `needle` occurs contiguously inside `hay`. -/
def hasInfix (needle : List Char) : List Char → Bool
  | [] => needle.isEmpty
  | c :: rest => needle.isPrefixOf (c :: rest) || hasInfix needle rest

/-- Model of the JavaScript test `s.indexOf(p) !== -1`: `p` occurs somewhere
inside `s`. -/
def occursIn (p s : String) : Bool :=
  hasInfix p.toList s.toList

/-! ### Lexicographic string order (model of JavaScript default `sort()`) -/

/-- Lexicographic comparison of character lists. -/
def charsLe : List Char → List Char → Bool
  | [], _ => true
  | _ :: _, [] => false
  | a :: as, b :: bs => if a = b then charsLe as bs else decide (a < b)

/-- Lexicographic comparison of strings, the order used by JavaScript's
default `Array.prototype.sort` on string arrays. -/
def strLe (a b : String) : Bool :=
  charsLe a.toList b.toList

/-- `strLe` as a binary relation. -/
def strLeP (a b : String) : Prop := strLe a b = true

instance : DecidableRel strLeP := fun a b =>
  inferInstanceAs (Decidable (strLe a b = true))

/-- Model of JavaScript `array.sort()` on an array of strings. -/
def sortStrings (l : List String) : List String :=
  l.insertionSort strLeP

/-! ### Data model -/

/-- The `config` object of one build variant; only its `affinity` tag is
inspected by this layer. -/
structure AffConfig where
  affinity : Option String := none
deriving DecidableEq, Repr

/-- One build variant inside a module-metadata record. -/
structure BuildRec where
  config : Option AffConfig := none
deriving DecidableEq, Repr

/-- A module-metadata record, the shape produced by the shifter checks and
consumed by `_getLoaderData` (`name`, `buildfile`, `builds`). -/
structure ModRec where
  name : String
  buildfile : String
  builds : List (String × BuildRec)
deriving DecidableEq, Repr

/-- One entry of a compiled loader manifest (`loaderData.json`): either the
filtered manifest of a registered module, or the synthetic meta-module entry
`{ group, affinity }` added by `_createClientLoaderData`. -/
inductive JsonEntry where
  | moduleEntry (name buildfile : String) (builds : List (String × BuildRec))
  | metaEntry (group affinity : String)
deriving DecidableEq, Repr

/-- The `yui` field this layer attaches to a bundle. -/
structure YuiData where
  server : Option (List (String × JsonEntry)) := none
  client : Option (List (String × JsonEntry)) := none
  metaModuleFullpath : Option String := none
  metaModuleName : Option String := none
deriving DecidableEq, Repr

/-- A locator bundle, as far as this layer reads and writes it. -/
structure Bundle where
  name : String
  buildDirectory : String
  yui : Option YuiData := none
deriving DecidableEq, Repr

/-- The effective config of a build variant: `config || {}`. -/
def effConfig (b : BuildRec) : AffConfig :=
  b.config.getD {}

/-! ### Association-list primitives (JavaScript object model) -/

/-- Lookup of a key in a string-keyed object. -/
def lookupKey {α : Type} : List (String × α) → String → Option α
  | [], _ => none
  | (k', v) :: t, k => if k' = k then some v else lookupKey t k

/-- Assignment `obj[k] = v` on a string-keyed object: replace the value of
an existing key in place, otherwise append the new key at the end. -/
def setKey {α : Type} : List (String × α) → String → α → List (String × α)
  | [], k, v => [(k, v)]
  | (k', v') :: t, k, v =>
      if k' = k then (k, v) :: t else (k', v') :: setKey t k v

/-- `obj[k] = true` on an object used as a set of keys, remembering only the
keys: append the key unless it is already present. -/
def addKey (l : List String) (k : String) : List String :=
  if k ∈ l then l else l ++ [k]

/-- The plugin's internal cache `this._bundles`: bundle name → cache key →
module-metadata record. -/
def Registry : Type := List (String × List (String × ModRec))

/-- `_register(bundleName, cacheKey, mod)` from `lib/plugin.js`:
`this._bundles[bundleName] = this._bundles[bundleName] || {};`
`this._bundles[bundleName][cacheKey] = mod;`. -/
def register (st : Registry) (bundleName cacheKey : String) (mod : ModRec) :
    Registry :=
  let inner := (lookupKey st bundleName).getD []
  setKey st bundleName (setKey inner cacheKey mod)

/-- Read one record of the registry: bundle name, then cache key. -/
def regGet (st : Registry) (bundleName cacheKey : String) : Option ModRec :=
  lookupKey ((lookupKey st bundleName).getD []) cacheKey

/-! ### `_buildsInBundle` (lib/plugin.js, lines 386-444)

The scan is split into its three loops, each a structural recursion over the
(already sorted) file list, threading the registry and the `builds` key set
exactly as the source does. -/

/-- The guard of the modified-file loop:
`libpath.extname(file) === '.js' && libpath.basename(file) !== 'loader-' + bundleName + '.js'`. -/
def shiftableJs (bundleName file : String) : Prop :=
  extname file = ".js" ∧ basename file ≠ "loader-" ++ bundleName ++ ".js"

instance (bundleName file : String) : Decidable (shiftableJs bundleName file) := by
  unfold shiftableJs; infer_instance

/-- The descriptor-trigger test of the `build.json` loop:
`libpath.extname(file) === '.js' && file.indexOf(dir) === 0 && file.indexOf(bundle.buildDirectory) === -1`. -/
def jsTriggers (buildDirectory dir file : String) : Prop :=
  extname file = ".js" ∧ strHasFront dir file = true ∧
    occursIn buildDirectory file = false

instance (buildDirectory dir file : String) :
    Decidable (jsTriggers buildDirectory dir file) := by
  unfold jsTriggers; infer_instance

/-- First loop of `_buildsInBundle`: for each modified file with extension
`.js` whose base name is not `loader-<bundleName>.js`, run the shifter
module check `c₁`; on success register the record under the file path and
add the path to the `builds` set. -/
def jsLoop (c₁ : String → Option ModRec) (bundleName : String) :
    Registry → List String → List String → Registry × List String
  | st, builds, [] => (st, builds)
  | st, builds, file :: rest =>
    if shiftableJs bundleName file then
      match c₁ file with
      | some mod =>
          jsLoop c₁ bundleName (register st bundleName file mod)
            (addKey builds file) rest
      | none => jsLoop c₁ bundleName st builds rest
    else jsLoop c₁ bundleName st builds rest

/-- Inner loop of the `build.json` scan: for a valid descriptor `jf` with
directory `dir`, walk the modified files; the descriptor becomes a target if
a modified file is the descriptor itself, or is a `.js` file whose path
starts with `dir` (`indexOf(dir) === 0`) and does not contain the bundle's
build directory (`indexOf(buildDirectory) === -1`). -/
def descrScan (buildDirectory dir jf : String) :
    List String → List String → List String
  | builds, [] => builds
  | builds, file :: rest =>
      let b1 := if file = jf then addKey builds jf else builds
      let b2 := if jsTriggers buildDirectory dir file then addKey b1 jf else b1
      descrScan buildDirectory dir jf b2 rest

/-- Second loop of `_buildsInBundle`: for each json file whose base name is
`build.json`, run the shifter descriptor check `c₂`; on success scan the
modified files for targeting and register the record under the descriptor
path (registration happens whether or not the descriptor became a target). -/
def jsonLoop (c₂ : String → Option ModRec) (bundleName buildDirectory : String)
    (modifiedFiles : List String) :
    Registry → List String → List String → Registry × List String
  | st, builds, [] => (st, builds)
  | st, builds, jf :: rest =>
    if basename jf = "build.json" then
      match c₂ jf with
      | some mod =>
          jsonLoop c₂ bundleName buildDirectory modifiedFiles
            (register st bundleName jf mod)
            (descrScan buildDirectory (dirname jf) jf builds modifiedFiles)
            rest
      | none => jsonLoop c₂ bundleName buildDirectory modifiedFiles st builds rest
    else jsonLoop c₂ bundleName buildDirectory modifiedFiles st builds rest

/-- `_buildsInBundle(bundle, modifiedFiles, jsonFiles)`: sort both input
lists, run the two scans, and return the updated registry together with the
sorted list of target paths (`Object.keys(builds).sort()`).  The shifter
checks `_checkYUIModule` and `_checkBuildFile` are the parameters `c₁` and
`c₂`. -/
def buildsInBundle (c₁ c₂ : String → Option ModRec) (st : Registry)
    (bundle : Bundle) (modifiedFiles jsonFiles : List String) :
    Registry × List String :=
  let mf := sortStrings modifiedFiles
  let jfs := sortStrings jsonFiles
  let p₁ := jsLoop c₁ bundle.name st [] mf
  let p₂ := jsonLoop c₂ bundle.name bundle.buildDirectory mf p₁.1 p₁.2 jfs
  (p₂.1, sortStrings p₂.2)

/-! ### `_getLoaderData` (lib/plugin.js, lines 155-193) -/

/-- The test `!filter || filter(meta[mod].name, meta[mod].builds[build].config || {})`. -/
def passes (filter : Option (String → AffConfig → Bool)) (name : String)
    (b : BuildRec) : Bool :=
  match filter with
  | none => true
  | some f => f name (effConfig b)

/-- One accepted build variant is merged into `buildMeta`:
`buildMeta[mod] = buildMeta[mod] || { name, buildfile, builds: {} };`
`buildMeta[mod].builds[build] = meta[mod].builds[build];`. -/
def addBuild (bm : List (String × ModRec)) (cacheKey : String) (r : ModRec)
    (bKey : String) (bRec : BuildRec) : List (String × ModRec) :=
  match lookupKey bm cacheKey with
  | none =>
      bm ++ [(cacheKey,
        { name := r.name, buildfile := r.buildfile, builds := [(bKey, bRec)] })]
  | some cur =>
      setKey bm cacheKey { cur with builds := setKey cur.builds bKey bRec }

/-- Inner loop of `_getLoaderData` over the builds of one registered record. -/
def buildLoop (filter : Option (String → AffConfig → Bool))
    (cacheKey : String) (r : ModRec) :
    List (String × ModRec) → List (String × BuildRec) → List (String × ModRec)
  | bm, [] => bm
  | bm, (bKey, bRec) :: rest =>
      if passes filter r.name bRec then
        buildLoop filter cacheKey r (addBuild bm cacheKey r bKey bRec) rest
      else buildLoop filter cacheKey r bm rest

/-- Outer loop of `_getLoaderData` over the registered records of a bundle. -/
def metaLoop (filter : Option (String → AffConfig → Bool)) :
    List (String × ModRec) → List (String × ModRec) → List (String × ModRec)
  | bm, [] => bm
  | bm, (k, r) :: rest => metaLoop filter (buildLoop filter k r bm r.builds) rest

/-- The `buildMeta` object computed by `_getLoaderData` from the registry
contents `meta` of one bundle. -/
def computeBuildMeta (meta : List (String × ModRec))
    (filter : Option (String → AffConfig → Bool)) : List (String × ModRec) :=
  metaLoop filter [] meta

/-- The `{ json, js }` pair produced by the meta-module builder. -/
structure BuilderData where
  json : List (String × JsonEntry)
  js : String
deriving DecidableEq, Repr

/-- Modelled from the spec: the external meta-module builder
(`lib/builder.js`, part of this repository but not under `src/`).  Per the
spec it is fed the filtered build metadata and "produces a structured
mapping and a textual artifact": the structured mapping `json` is keyed by
module name and keeps each module's `name` and `buildfile`, and the textual
artifact `js` embeds that mapping for the bundle's meta module
`loader-<bundleName>`. -/
def builderCompile (bundleName : String) (buildMeta : List (String × ModRec)) :
    BuilderData :=
  { json := buildMeta.map (fun e =>
      (e.2.name, JsonEntry.moduleEntry e.2.name e.2.buildfile e.2.builds)),
    js := "loader-" ++ bundleName ++ ":" ++
      String.intercalate "," (buildMeta.map (fun e => e.2.name)) }

/-- `_getLoaderData(bundleName, filter)`: read the registry, filter every
build variant, and return the builder's `{ json, js }` pair, or an absent
value when no variant survives (`!Object.keys(buildMeta).length`) or when
the builder's mapping is empty
(`(obj.data && Object.keys(obj.data.json).length) && obj.data`). -/
def getLoaderData (st : Registry) (bundleName : String)
    (filter : Option (String → AffConfig → Bool)) : Option BuilderData :=
  let meta := (lookupKey st bundleName).getD []
  let buildMeta := computeBuildMeta meta filter
  if buildMeta.isEmpty then none
  else
    let data := builderCompile bundleName buildMeta
    if data.json.isEmpty then none else some data

/-- The server-view filter: `config.affinity !== 'client'`. -/
def serverFilter : String → AffConfig → Bool :=
  fun _ config => decide (config.affinity ≠ some "client")

/-- The client-view filter: `config.affinity !== 'server'`. -/
def clientFilter : String → AffConfig → Bool :=
  fun _ config => decide (config.affinity ≠ some "server")

/-- `_createServerLoaderData(bundle)`. -/
def createServerLoaderData (st : Registry) (bundle : Bundle) :
    Option BuilderData :=
  getLoaderData st bundle.name (some serverFilter)

/-- `_createClientLoaderData(bundle, moduleName)`: compile the client view
and, when present, add the synthetic meta-module entry
`loaderData.json[moduleName] = { group: bundleName, affinity: 'client' }`. -/
def createClientLoaderData (st : Registry) (bundle : Bundle)
    (moduleName : String) : Option BuilderData :=
  match getLoaderData st bundle.name (some clientFilter) with
  | none => none
  | some d =>
      some { d with
        json := setKey d.json moduleName (JsonEntry.metaEntry bundle.name "client") }

/-! ### Attach helpers and the `bundleUpdated` pipeline -/

/-- `_attachServerLoaderData(bundle, loaderData)`: when loader data is
present, set `bundle.yui.server`; otherwise leave the bundle untouched. -/
def attachServerLoaderData (bundle : Bundle) (loaderData : Option BuilderData) :
    Bundle :=
  match loaderData with
  | none => bundle
  | some d =>
      let y := bundle.yui.getD {}
      { bundle with yui := some { y with server := some d.json } }

/-- `_attachClientLoaderData(bundle, api, destPath, loaderData)`: when
loader data is present, set `bundle.yui.client` and issue the artifact
write `api.writeFileInBundle(bundleName, destPath, loaderData.js)`; the
second component is the write request issued (`none` when the primitive is
not called, which is also the function's absent return value). -/
def attachClientLoaderData (bundle : Bundle) (destPath : String)
    (loaderData : Option BuilderData) :
    Bundle × Option (String × String × String) :=
  match loaderData with
  | none => (bundle, none)
  | some d =>
      let y := bundle.yui.getD {}
      ({ bundle with yui := some { y with client := some d.json } },
       some (bundle.name, destPath, d.js))

/-- `_attachClientMetaData(bundle, builds, moduleName, newfile)`: when the
artifact write produced a file, record its path and name on `bundle.yui`
and push the path onto the builds collection. -/
def attachClientMetaData (bundle : Bundle) (builds : List String)
    (moduleName : String) (newfile : Option String) : Bundle × List String :=
  match newfile with
  | none => (bundle, builds)
  | some nf =>
      let y := bundle.yui.getD {}
      ({ bundle with yui := some { y with
          metaModuleFullpath := some nf, metaModuleName := some moduleName } },
       builds ++ [nf])

/-- Modelled from the spec: `utils.filterFilesInBundle` (`lib/utils.js`,
part of this repository but not under `src/`).  Per the spec, the optional
configured filter predicate is applied upstream to the modified-file list,
keeping the files for which it returns true; with no filter configured, all
modified files are kept. -/
def filterFilesInBundle (bundle : Bundle) (files : List String)
    (filterFn : Option (Bundle → String → Bool)) : List String :=
  match filterFn with
  | none => files
  | some f => files.filter (f bundle)

/-- The external effects requested by one `bundleUpdated` run once it passes
the early-return guard. -/
structure Effects where
  serverData : Option BuilderData
  clientData : Option BuilderData
  writeCall : Option (String × String × String)
  newfile : Option String
  shiftedFiles : List String
deriving DecidableEq, Repr

/-- `bundleUpdated(evt, api)`: filter the event's files, resolve the build
targets, and — unless the bundle has no registry entry or the target set is
empty — run the pipeline: compile and attach the server view, compile and
attach the client view, write the meta-module artifact, record the new file,
and hand the final builds collection to the shifter.  `writeFile` models the
host's `api.writeFileInBundle` (returning the written path, or `none` when
nothing was written); the returned `Effects` value records the requests made
to the collaborators, `none` meaning the early no-op return was taken. -/
def bundleUpdated (c₁ c₂ : String → Option ModRec)
    (filterFn : Option (Bundle → String → Bool))
    (writeFile : String → String → String → Option String)
    (st : Registry) (bundle : Bundle) (evtFiles jsonFiles : List String) :
    Registry × Bundle × Option Effects :=
  let bundleName := bundle.name
  let moduleName := "loader-" ++ bundleName
  let destPath := moduleName ++ ".js"
  let files := filterFilesInBundle bundle evtFiles filterFn
  let p := buildsInBundle c₁ c₂ st bundle files jsonFiles
  let st' := p.1
  let builds := p.2
  let meta := lookupKey st' bundleName
  if meta = none ∨ builds = [] then (st', bundle, none)
  else
    let serverData := createServerLoaderData st' bundle
    let bundle₁ := attachServerLoaderData bundle serverData
    let clientData := createClientLoaderData st' bundle₁ moduleName
    let q := attachClientLoaderData bundle₁ destPath clientData
    let newfile :=
      match q.2 with
      | some w => writeFile w.1 w.2.1 w.2.2
      | none => none
    let r := attachClientMetaData q.1 builds moduleName newfile
    (st', r.1, some
      { serverData := serverData, clientData := clientData,
        writeCall := q.2, newfile := newfile, shiftedFiles := r.2 })

/-! ### Association-list lemmas -/

/-- Keys of a string-keyed object are pairwise distinct. -/
def keysNodup {α : Type} (l : List (String × α)) : Prop :=
  (l.map Prod.fst).Nodup

instance {α : Type} (l : List (String × α)) : Decidable (keysNodup l) := by
  unfold keysNodup; infer_instance

theorem lookupKey_setKey_self {α : Type} :
    ∀ (l : List (String × α)) (k : String) (v : α),
      lookupKey (setKey l k v) k = some v
  | [], k, v => by simp [setKey, lookupKey]
  | (k₀, v₀) :: t, k, v => by
      by_cases hk : k₀ = k
      · simp [setKey, hk, lookupKey]
      · simp only [setKey, hk, if_false, lookupKey]
        exact lookupKey_setKey_self t k v

theorem lookupKey_setKey_ne {α : Type} :
    ∀ (l : List (String × α)) {k k' : String} (v : α), k' ≠ k →
      lookupKey (setKey l k v) k' = lookupKey l k'
  | [], k, k', v, h => by simp [setKey, lookupKey, Ne.symm h]
  | (k₀, v₀) :: t, k, k', v, h => by
      by_cases hk : k₀ = k
      · subst hk
        simp [setKey, lookupKey, Ne.symm h]
      · simp only [setKey, hk, if_false, lookupKey]
        by_cases hk' : k₀ = k'
        · simp [hk']
        · simp only [hk', if_false]
          exact lookupKey_setKey_ne t v h

theorem mem_addKey {l : List String} {k p : String} :
    p ∈ addKey l k ↔ p ∈ l ∨ p = k := by
  by_cases h : k ∈ l
  · constructor
    · intro hp; exact Or.inl (by simpa [addKey, h] using hp)
    · intro hp
      rcases hp with hp | hp
      · simpa [addKey, h] using hp
      · subst hp
        simp only [addKey, if_pos h]
        exact h
  · simp [addKey, h]

theorem nodup_addKey {l : List String} (k : String) (h : l.Nodup) :
    (addKey l k).Nodup := by
  by_cases hk : k ∈ l
  · simp only [addKey, if_pos hk]
    exact h
  · simpa [addKey, hk] using List.Nodup.append h (by simp) (by simpa using hk)

theorem regGet_register (st : Registry) (bn f : String) (m : ModRec)
    (bn' k : String) :
    regGet (register st bn f m) bn' k =
      if bn' = bn ∧ k = f then some m else regGet st bn' k := by
  by_cases hb : bn' = bn
  · subst hb
    by_cases hk : k = f
    · subst hk
      simp [regGet, register, lookupKey_setKey_self]
    · simp only [regGet, register, lookupKey_setKey_self, Option.getD_some,
        hk, and_false, if_false]
      rw [lookupKey_setKey_ne _ _ hk]
  · simp only [regGet, register, hb, false_and, if_false]
    rw [lookupKey_setKey_ne _ _ hb]

theorem regGet_isSome_lookupKey {st : Registry} {bn k : String}
    (h : (regGet st bn k).isSome = true) : lookupKey st bn ≠ none := by
  intro hnone
  rw [regGet, hnone] at h
  simp [lookupKey] at h

/-! ### The lexicographic order used by `sortStrings` -/

theorem charsLe_total : ∀ a b : List Char, charsLe a b = true ∨ charsLe b a = true
  | [], _ => Or.inl rfl
  | _ :: _, [] => Or.inr rfl
  | a :: as, b :: bs => by
      by_cases h : a = b
      · subst h
        simpa [charsLe] using charsLe_total as bs
      · rcases lt_or_gt_of_ne h with hlt | hlt
        · exact Or.inl (by simp [charsLe, h, hlt])
        · exact Or.inr (by simp [charsLe, Ne.symm h, hlt])

theorem charsLe_trans : ∀ a b c : List Char,
    charsLe a b = true → charsLe b c = true → charsLe a c = true
  | [], _, _, _, _ => rfl
  | _ :: _, [], _, h, _ => by simp [charsLe] at h
  | _ :: _, _ :: _, [], _, h => by simp [charsLe] at h
  | a :: as, b :: bs, c :: cs, hab, hbc => by
      by_cases h1 : a = b
      · subst h1
        by_cases h2 : a = c
        · subst h2
          simp only [charsLe, if_pos rfl] at hab hbc ⊢
          exact charsLe_trans as bs cs hab hbc
        · have hac : a < c := by simpa [charsLe, h2] using hbc
          simp [charsLe, h2, hac]
      · have hlt : a < b := by simpa [charsLe, h1] using hab
        by_cases h2 : b = c
        · subst h2
          simp [charsLe, h1, hlt]
        · have hlt2 : b < c := by simpa [charsLe, h2] using hbc
          have hac : a < c := lt_trans hlt hlt2
          simp [charsLe, ne_of_lt hac, hac]

theorem charsLe_antisymm : ∀ a b : List Char,
    charsLe a b = true → charsLe b a = true → a = b
  | [], [], _, _ => rfl
  | [], _ :: _, _, h => by simp [charsLe] at h
  | _ :: _, [], h, _ => by simp [charsLe] at h
  | a :: as, b :: bs, hab, hba => by
      by_cases h : a = b
      · subst h
        simp only [charsLe, if_pos rfl] at hab hba
        rw [charsLe_antisymm as bs hab hba]
      · have hlt : a < b := by simpa [charsLe, h] using hab
        have hlt2 : b < a := by simpa [charsLe, Ne.symm h] using hba
        exact absurd hlt2 (lt_asymm hlt)

instance : IsTotal String strLeP :=
  ⟨fun a b => charsLe_total a.toList b.toList⟩

instance : IsTrans String strLeP :=
  ⟨fun a b c => charsLe_trans a.toList b.toList c.toList⟩

instance : IsAntisymm String strLeP :=
  ⟨fun a b hab hba =>
    String.toList_inj.mp (charsLe_antisymm a.toList b.toList hab hba)⟩

theorem sortStrings_perm (l : List String) : List.Perm (sortStrings l) l :=
  List.perm_insertionSort strLeP l

theorem mem_sortStrings {l : List String} {x : String} :
    x ∈ sortStrings l ↔ x ∈ l :=
  (sortStrings_perm l).mem_iff

theorem sortStrings_sorted (l : List String) :
    List.Sorted strLeP (sortStrings l) :=
  List.sorted_insertionSort strLeP l

theorem sortStrings_nodup {l : List String} (h : l.Nodup) :
    (sortStrings l).Nodup :=
  (sortStrings_perm l).nodup_iff.mpr h

theorem sortStrings_eq_of_perm {l₁ l₂ : List String} (h : List.Perm l₁ l₂) :
    sortStrings l₁ = sortStrings l₂ :=
  List.eq_of_perm_of_sorted
    (((sortStrings_perm l₁).trans h).trans (sortStrings_perm l₂).symm)
    (sortStrings_sorted l₁) (sortStrings_sorted l₂)

/-! ### Membership characterization of the `_buildsInBundle` loops -/

theorem step_mem_add {builds rest : List String} {file p : String}
    {P : String → Prop} (hp : P file) :
    (p ∈ addKey builds file ∨ (p ∈ rest ∧ P p)) ↔
      (p ∈ builds ∨ (p ∈ file :: rest ∧ P p)) := by
  constructor
  · rintro (h | ⟨h1, h2⟩)
    · rcases mem_addKey.mp h with h | h
      · exact Or.inl h
      · subst h
        exact Or.inr ⟨List.mem_cons_self _ _, hp⟩
    · exact Or.inr ⟨List.mem_cons_of_mem _ h1, h2⟩
  · rintro (h | ⟨h1, h2⟩)
    · exact Or.inl (mem_addKey.mpr (Or.inl h))
    · rcases List.mem_cons.mp h1 with h1 | h1
      · exact Or.inl (mem_addKey.mpr (Or.inr h1))
      · exact Or.inr ⟨h1, h2⟩

theorem step_mem_skip {builds rest : List String} {file p : String}
    {P : String → Prop} (hnp : ¬ P file) :
    (p ∈ builds ∨ (p ∈ rest ∧ P p)) ↔
      (p ∈ builds ∨ (p ∈ file :: rest ∧ P p)) := by
  constructor
  · rintro (h | ⟨h1, h2⟩)
    · exact Or.inl h
    · exact Or.inr ⟨List.mem_cons_of_mem _ h1, h2⟩
  · rintro (h | ⟨h1, h2⟩)
    · exact Or.inl h
    · rcases List.mem_cons.mp h1 with h1 | h1
      · subst h1
        exact absurd h2 hnp
      · exact Or.inr ⟨h1, h2⟩

theorem mem_jsLoop (c₁ : String → Option ModRec) (bn : String) :
    ∀ (files : List String) (st : Registry) (builds : List String) (p : String),
      (p ∈ (jsLoop c₁ bn st builds files).2 ↔
        p ∈ builds ∨ (p ∈ files ∧ shiftableJs bn p ∧ (c₁ p).isSome = true))
  | [], st, builds, p => by simp [jsLoop]
  | file :: rest, st, builds, p => by
      by_cases hcond : shiftableJs bn file
      · cases hc : c₁ file with
        | some mod =>
            rw [show jsLoop c₁ bn st builds (file :: rest) =
                jsLoop c₁ bn (register st bn file mod) (addKey builds file) rest by
              simp [jsLoop, if_pos hcond, hc]]
            rw [mem_jsLoop c₁ bn rest _ _ p]
            exact step_mem_add
              (P := fun f => shiftableJs bn f ∧ (c₁ f).isSome = true)
              ⟨hcond, by simp [hc]⟩
        | none =>
            rw [show jsLoop c₁ bn st builds (file :: rest) =
                jsLoop c₁ bn st builds rest by simp [jsLoop, if_pos hcond, hc]]
            rw [mem_jsLoop c₁ bn rest _ _ p]
            exact step_mem_skip
              (P := fun f => shiftableJs bn f ∧ (c₁ f).isSome = true)
              (fun h => by simp [hc] at h)
      · rw [show jsLoop c₁ bn st builds (file :: rest) =
            jsLoop c₁ bn st builds rest by simp [jsLoop, if_neg hcond]]
        rw [mem_jsLoop c₁ bn rest _ _ p]
        exact step_mem_skip
          (P := fun f => shiftableJs bn f ∧ (c₁ f).isSome = true)
          (fun h => hcond h.1)

theorem mem_descrScan (bd dir jf : String) :
    ∀ (files : List String) (builds : List String) (p : String),
      (p ∈ descrScan bd dir jf builds files ↔
        p ∈ builds ∨ (p = jf ∧ ∃ f ∈ files, f = jf ∨ jsTriggers bd dir f))
  | [], builds, p => by simp [descrScan]
  | file :: rest, builds, p => by
      rw [show descrScan bd dir jf builds (file :: rest) =
          descrScan bd dir jf
            (if jsTriggers bd dir file then
              addKey (if file = jf then addKey builds jf else builds) jf
             else if file = jf then addKey builds jf else builds) rest from rfl]
      rw [mem_descrScan bd dir jf rest _ p]
      by_cases h1 : file = jf
      · by_cases h2 : jsTriggers bd dir file
        · rw [if_pos h2, if_pos h1]
          constructor
          · rintro (h | ⟨h3, h4⟩)
            · rcases mem_addKey.mp h with h | h
              · rcases mem_addKey.mp h with h | h
                · exact Or.inl h
                · exact Or.inr ⟨h, ⟨file, List.mem_cons_self _ _, Or.inl h1⟩⟩
              · exact Or.inr ⟨h, ⟨file, List.mem_cons_self _ _, Or.inl h1⟩⟩
            · exact Or.inr ⟨h3, by
                rcases h4 with ⟨f, hf, hor⟩
                exact ⟨f, List.mem_cons_of_mem _ hf, hor⟩⟩
          · rintro (h | ⟨h3, _⟩)
            · exact Or.inl (mem_addKey.mpr (Or.inl (mem_addKey.mpr (Or.inl h))))
            · exact Or.inl (mem_addKey.mpr (Or.inr h3))
        · rw [if_neg h2, if_pos h1]
          constructor
          · rintro (h | ⟨h3, h4⟩)
            · rcases mem_addKey.mp h with h | h
              · exact Or.inl h
              · exact Or.inr ⟨h, ⟨file, List.mem_cons_self _ _, Or.inl h1⟩⟩
            · exact Or.inr ⟨h3, by
                rcases h4 with ⟨f, hf, hor⟩
                exact ⟨f, List.mem_cons_of_mem _ hf, hor⟩⟩
          · rintro (h | ⟨h3, _⟩)
            · exact Or.inl (mem_addKey.mpr (Or.inl h))
            · exact Or.inl (mem_addKey.mpr (Or.inr h3))
      · by_cases h2 : jsTriggers bd dir file
        · rw [if_pos h2, if_neg h1]
          constructor
          · rintro (h | ⟨h3, h4⟩)
            · rcases mem_addKey.mp h with h | h
              · exact Or.inl h
              · exact Or.inr ⟨h, ⟨file, List.mem_cons_self _ _, Or.inr h2⟩⟩
            · exact Or.inr ⟨h3, by
                rcases h4 with ⟨f, hf, hor⟩
                exact ⟨f, List.mem_cons_of_mem _ hf, hor⟩⟩
          · rintro (h | ⟨h3, _⟩)
            · exact Or.inl (mem_addKey.mpr (Or.inl h))
            · exact Or.inl (mem_addKey.mpr (Or.inr h3))
        · rw [if_neg h2, if_neg h1]
          constructor
          · rintro (h | ⟨h3, h4⟩)
            · exact Or.inl h
            · exact Or.inr ⟨h3, by
                rcases h4 with ⟨f, hf, hor⟩
                exact ⟨f, List.mem_cons_of_mem _ hf, hor⟩⟩
          · rintro (h | ⟨h3, h4⟩)
            · exact Or.inl h
            · rcases h4 with ⟨f, hf, hor⟩
              rcases List.mem_cons.mp hf with hf | hf
              · subst hf
                rcases hor with hor | hor
                · exact absurd hor h1
                · exact absurd hor h2
              · exact Or.inr ⟨h3, ⟨f, hf, hor⟩⟩

/-- The condition under which a `build.json` descriptor becomes a target:
it was itself modified, or some modified `.js` file under its directory and
outside the build directory triggers it. -/
def descrTargeted (bd dir p : String) (mf : List String) : Prop :=
  ∃ f ∈ mf, f = p ∨ jsTriggers bd dir f

theorem mem_jsonLoop (c₂ : String → Option ModRec) (bn bd : String)
    (mf : List String) :
    ∀ (jfs : List String) (st : Registry) (builds : List String) (p : String),
      (p ∈ (jsonLoop c₂ bn bd mf st builds jfs).2 ↔
        p ∈ builds ∨ (p ∈ jfs ∧ basename p = "build.json" ∧
          (c₂ p).isSome = true ∧ descrTargeted bd (dirname p) p mf))
  | [], st, builds, p => by simp [jsonLoop]
  | jf :: rest, st, builds, p => by
      by_cases hb : basename jf = "build.json"
      · cases hc : c₂ jf with
        | some mod =>
            rw [show jsonLoop c₂ bn bd mf st builds (jf :: rest) =
                jsonLoop c₂ bn bd mf (register st bn jf mod)
                  (descrScan bd (dirname jf) jf builds mf) rest by
              simp [jsonLoop, if_pos hb, hc]]
            rw [mem_jsonLoop c₂ bn bd mf rest _ _ p]
            constructor
            · rintro (h | ⟨h1, h2⟩)
              · rcases (mem_descrScan bd (dirname jf) jf mf builds p).mp h with
                  h | ⟨h3, h4⟩
                · exact Or.inl h
                · subst h3
                  exact Or.inr ⟨List.mem_cons_self _ _, hb, by simp [hc], h4⟩
              · exact Or.inr ⟨List.mem_cons_of_mem _ h1, h2⟩
            · rintro (h | ⟨h1, h2⟩)
              · exact Or.inl ((mem_descrScan bd (dirname jf) jf mf builds p).mpr
                  (Or.inl h))
              · rcases List.mem_cons.mp h1 with h1 | h1
                · subst h1
                  exact Or.inl ((mem_descrScan bd (dirname p) p mf builds p).mpr
                    (Or.inr ⟨rfl, h2.2.2⟩))
                · exact Or.inr ⟨h1, h2⟩
        | none =>
            rw [show jsonLoop c₂ bn bd mf st builds (jf :: rest) =
                jsonLoop c₂ bn bd mf st builds rest by
              simp [jsonLoop, if_pos hb, hc]]
            rw [mem_jsonLoop c₂ bn bd mf rest _ _ p]
            exact step_mem_skip
              (P := fun q => basename q = "build.json" ∧ (c₂ q).isSome = true ∧
                descrTargeted bd (dirname q) q mf)
              (fun h => by simp [hc] at h)
      · rw [show jsonLoop c₂ bn bd mf st builds (jf :: rest) =
            jsonLoop c₂ bn bd mf st builds rest by simp [jsonLoop, if_neg hb]]
        rw [mem_jsonLoop c₂ bn bd mf rest _ _ p]
        exact step_mem_skip
          (P := fun q => basename q = "build.json" ∧ (c₂ q).isSome = true ∧
            descrTargeted bd (dirname q) q mf)
          (fun h => hb h.1)

/-- Membership characterization of the target set returned by
`_buildsInBundle`: a path is a target exactly when it is a modified `.js`
file (other than the loader meta module) accepted by the module check, or a
known `build.json` descriptor accepted by the descriptor check that was
itself modified or had a triggering modified `.js` file. -/
theorem mem_buildsInBundle (c₁ c₂ : String → Option ModRec) (st : Registry)
    (bundle : Bundle) (mf jfs : List String) (p : String) :
    p ∈ (buildsInBundle c₁ c₂ st bundle mf jfs).2 ↔
      (p ∈ mf ∧ shiftableJs bundle.name p ∧ (c₁ p).isSome = true) ∨
      (p ∈ jfs ∧ basename p = "build.json" ∧ (c₂ p).isSome = true ∧
        descrTargeted bundle.buildDirectory (dirname p) p mf) := by
  unfold buildsInBundle
  rw [mem_sortStrings, mem_jsonLoop, mem_jsLoop]
  simp only [List.not_mem_nil, false_and, false_or, mem_sortStrings]
  constructor
  · rintro (h | h)
    · exact Or.inl h
    · refine Or.inr ⟨h.1, h.2.1, h.2.2.1, ?_⟩
      rcases h.2.2.2 with ⟨f, hf, hor⟩
      exact ⟨f, mem_sortStrings.mp hf, hor⟩
  · rintro (h | h)
    · exact Or.inl h
    · refine Or.inr ⟨h.1, h.2.1, h.2.2.1, ?_⟩
      rcases h.2.2.2 with ⟨f, hf, hor⟩
      exact ⟨f, mem_sortStrings.mpr hf, hor⟩

/-! ### Registry effects of the `_buildsInBundle` loops -/

theorem buildsInBundle_fst (c₁ c₂ : String → Option ModRec) (st : Registry)
    (bundle : Bundle) (mf jfs : List String) :
    (buildsInBundle c₁ c₂ st bundle mf jfs).1 =
      (jsonLoop c₂ bundle.name bundle.buildDirectory (sortStrings mf)
        (jsLoop c₁ bundle.name st [] (sortStrings mf)).1
        (jsLoop c₁ bundle.name st [] (sortStrings mf)).2
        (sortStrings jfs)).1 := rfl

theorem regGet_jsLoop_skip (c₁ : String → Option ModRec) (bn : String)
    {k : String} (hk : ¬(shiftableJs bn k ∧ (c₁ k).isSome = true)) :
    ∀ (files : List String) (st : Registry) (builds : List String)
      (bn' : String),
      regGet (jsLoop c₁ bn st builds files).1 bn' k = regGet st bn' k
  | [], st, builds, bn' => rfl
  | file :: rest, st, builds, bn' => by
      by_cases hcond : shiftableJs bn file
      · cases hc : c₁ file with
        | some mod =>
            rw [show jsLoop c₁ bn st builds (file :: rest) =
                jsLoop c₁ bn (register st bn file mod) (addKey builds file) rest by
              simp [jsLoop, if_pos hcond, hc]]
            rw [regGet_jsLoop_skip c₁ bn hk rest _ _ bn', regGet_register]
            have hno : ¬(bn' = bn ∧ k = file) := by
              rintro ⟨_, rfl⟩
              exact hk ⟨hcond, by simp [hc]⟩
            rw [if_neg hno]
        | none =>
            rw [show jsLoop c₁ bn st builds (file :: rest) =
                jsLoop c₁ bn st builds rest by simp [jsLoop, if_pos hcond, hc]]
            exact regGet_jsLoop_skip c₁ bn hk rest _ _ bn'
      · rw [show jsLoop c₁ bn st builds (file :: rest) =
            jsLoop c₁ bn st builds rest by simp [jsLoop, if_neg hcond]]
        exact regGet_jsLoop_skip c₁ bn hk rest _ _ bn'

theorem regGet_jsLoop_pres (c₁ : String → Option ModRec) (bn : String)
    {k : String} {m : ModRec} (hm : c₁ k = some m) :
    ∀ (files : List String) (st : Registry) (builds : List String),
      regGet st bn k = some m →
      regGet (jsLoop c₁ bn st builds files).1 bn k = some m
  | [], st, builds, h => h
  | file :: rest, st, builds, h => by
      by_cases hcond : shiftableJs bn file
      · cases hc : c₁ file with
        | some mod =>
            rw [show jsLoop c₁ bn st builds (file :: rest) =
                jsLoop c₁ bn (register st bn file mod) (addKey builds file) rest by
              simp [jsLoop, if_pos hcond, hc]]
            refine regGet_jsLoop_pres c₁ bn hm rest _ _ ?_
            rw [regGet_register]
            by_cases hkf : k = file
            · subst hkf
              rw [hm] at hc
              rw [if_pos ⟨rfl, rfl⟩]
              exact congrArg some (Option.some_inj.mp hc).symm
            · rw [if_neg (fun hh => hkf hh.2)]
              exact h
        | none =>
            rw [show jsLoop c₁ bn st builds (file :: rest) =
                jsLoop c₁ bn st builds rest by simp [jsLoop, if_pos hcond, hc]]
            exact regGet_jsLoop_pres c₁ bn hm rest _ _ h
      · rw [show jsLoop c₁ bn st builds (file :: rest) =
            jsLoop c₁ bn st builds rest by simp [jsLoop, if_neg hcond]]
        exact regGet_jsLoop_pres c₁ bn hm rest _ _ h

theorem regGet_jsLoop_mem (c₁ : String → Option ModRec) (bn : String)
    {k : String} {m : ModRec} (hk1 : shiftableJs bn k) (hm : c₁ k = some m) :
    ∀ (files : List String) (st : Registry) (builds : List String),
      k ∈ files → regGet (jsLoop c₁ bn st builds files).1 bn k = some m
  | [], _, _, h => absurd h (List.not_mem_nil k)
  | file :: rest, st, builds, h => by
      by_cases hkf : file = k
      · subst hkf
        rw [show jsLoop c₁ bn st builds (file :: rest) =
            jsLoop c₁ bn (register st bn file m) (addKey builds file) rest by
          simp [jsLoop, if_pos hk1, hm]]
        refine regGet_jsLoop_pres c₁ bn hm rest _ _ ?_
        rw [regGet_register, if_pos ⟨rfl, rfl⟩]
      · have hkr : k ∈ rest := by
          rcases List.mem_cons.mp h with hh | hh
          · exact absurd hh.symm hkf
          · exact hh
        by_cases hcond : shiftableJs bn file
        · cases hc : c₁ file with
          | some mod =>
              rw [show jsLoop c₁ bn st builds (file :: rest) =
                  jsLoop c₁ bn (register st bn file mod) (addKey builds file) rest by
                simp [jsLoop, if_pos hcond, hc]]
              exact regGet_jsLoop_mem c₁ bn hk1 hm rest _ _ hkr
          | none =>
              rw [show jsLoop c₁ bn st builds (file :: rest) =
                  jsLoop c₁ bn st builds rest by simp [jsLoop, if_pos hcond, hc]]
              exact regGet_jsLoop_mem c₁ bn hk1 hm rest _ _ hkr
        · rw [show jsLoop c₁ bn st builds (file :: rest) =
              jsLoop c₁ bn st builds rest by simp [jsLoop, if_neg hcond]]
          exact regGet_jsLoop_mem c₁ bn hk1 hm rest _ _ hkr

theorem regGet_jsonLoop_skip (c₂ : String → Option ModRec) (bn bd : String)
    (mf : List String) {k : String}
    (hk : ¬(basename k = "build.json" ∧ (c₂ k).isSome = true)) :
    ∀ (jfs : List String) (st : Registry) (builds : List String)
      (bn' : String),
      regGet (jsonLoop c₂ bn bd mf st builds jfs).1 bn' k = regGet st bn' k
  | [], st, builds, bn' => rfl
  | jf :: rest, st, builds, bn' => by
      by_cases hb : basename jf = "build.json"
      · cases hc : c₂ jf with
        | some mod =>
            rw [show jsonLoop c₂ bn bd mf st builds (jf :: rest) =
                jsonLoop c₂ bn bd mf (register st bn jf mod)
                  (descrScan bd (dirname jf) jf builds mf) rest by
              simp [jsonLoop, if_pos hb, hc]]
            rw [regGet_jsonLoop_skip c₂ bn bd mf hk rest _ _ bn', regGet_register]
            have hno : ¬(bn' = bn ∧ k = jf) := by
              rintro ⟨_, rfl⟩
              exact hk ⟨hb, by simp [hc]⟩
            rw [if_neg hno]
        | none =>
            rw [show jsonLoop c₂ bn bd mf st builds (jf :: rest) =
                jsonLoop c₂ bn bd mf st builds rest by simp [jsonLoop, if_pos hb, hc]]
            exact regGet_jsonLoop_skip c₂ bn bd mf hk rest _ _ bn'
      · rw [show jsonLoop c₂ bn bd mf st builds (jf :: rest) =
            jsonLoop c₂ bn bd mf st builds rest by simp [jsonLoop, if_neg hb]]
        exact regGet_jsonLoop_skip c₂ bn bd mf hk rest _ _ bn'

theorem regGet_jsonLoop_pres (c₂ : String → Option ModRec) (bn bd : String)
    (mf : List String) {k : String} {m : ModRec} (hm : c₂ k = some m) :
    ∀ (jfs : List String) (st : Registry) (builds : List String),
      regGet st bn k = some m →
      regGet (jsonLoop c₂ bn bd mf st builds jfs).1 bn k = some m
  | [], st, builds, h => h
  | jf :: rest, st, builds, h => by
      by_cases hb : basename jf = "build.json"
      · cases hc : c₂ jf with
        | some mod =>
            rw [show jsonLoop c₂ bn bd mf st builds (jf :: rest) =
                jsonLoop c₂ bn bd mf (register st bn jf mod)
                  (descrScan bd (dirname jf) jf builds mf) rest by
              simp [jsonLoop, if_pos hb, hc]]
            refine regGet_jsonLoop_pres c₂ bn bd mf hm rest _ _ ?_
            rw [regGet_register]
            by_cases hkf : k = jf
            · subst hkf
              rw [hm] at hc
              rw [if_pos ⟨rfl, rfl⟩]
              exact congrArg some (Option.some_inj.mp hc).symm
            · rw [if_neg (fun hh => hkf hh.2)]
              exact h
        | none =>
            rw [show jsonLoop c₂ bn bd mf st builds (jf :: rest) =
                jsonLoop c₂ bn bd mf st builds rest by simp [jsonLoop, if_pos hb, hc]]
            exact regGet_jsonLoop_pres c₂ bn bd mf hm rest _ _ h
      · rw [show jsonLoop c₂ bn bd mf st builds (jf :: rest) =
            jsonLoop c₂ bn bd mf st builds rest by simp [jsonLoop, if_neg hb]]
        exact regGet_jsonLoop_pres c₂ bn bd mf hm rest _ _ h

theorem regGet_jsonLoop_mem (c₂ : String → Option ModRec) (bn bd : String)
    (mf : List String) {k : String} {m : ModRec}
    (hb : basename k = "build.json") (hm : c₂ k = some m) :
    ∀ (jfs : List String) (st : Registry) (builds : List String),
      k ∈ jfs → regGet (jsonLoop c₂ bn bd mf st builds jfs).1 bn k = some m
  | [], _, _, h => absurd h (List.not_mem_nil k)
  | jf :: rest, st, builds, h => by
      by_cases hkf : jf = k
      · subst hkf
        rw [show jsonLoop c₂ bn bd mf st builds (jf :: rest) =
            jsonLoop c₂ bn bd mf (register st bn jf m)
              (descrScan bd (dirname jf) jf builds mf) rest by
          simp [jsonLoop, if_pos hb, hm]]
        refine regGet_jsonLoop_pres c₂ bn bd mf hm rest _ _ ?_
        rw [regGet_register, if_pos ⟨rfl, rfl⟩]
      · have hkr : k ∈ rest := by
          rcases List.mem_cons.mp h with hh | hh
          · exact absurd hh.symm hkf
          · exact hh
        by_cases hb' : basename jf = "build.json"
        · cases hc : c₂ jf with
          | some mod =>
              rw [show jsonLoop c₂ bn bd mf st builds (jf :: rest) =
                  jsonLoop c₂ bn bd mf (register st bn jf mod)
                    (descrScan bd (dirname jf) jf builds mf) rest by
                simp [jsonLoop, if_pos hb', hc]]
              exact regGet_jsonLoop_mem c₂ bn bd mf hb hm rest _ _ hkr
          | none =>
              rw [show jsonLoop c₂ bn bd mf st builds (jf :: rest) =
                  jsonLoop c₂ bn bd mf st builds rest by
                simp [jsonLoop, if_pos hb', hc]]
              exact regGet_jsonLoop_mem c₂ bn bd mf hb hm rest _ _ hkr
        · rw [show jsonLoop c₂ bn bd mf st builds (jf :: rest) =
              jsonLoop c₂ bn bd mf st builds rest by simp [jsonLoop, if_neg hb']]
          exact regGet_jsonLoop_mem c₂ bn bd mf hb hm rest _ _ hkr

theorem regGet_jsonLoop_isSome (c₂ : String → Option ModRec) (bn bd : String)
    (mf : List String) {k bn' : String} :
    ∀ (jfs : List String) (st : Registry) (builds : List String),
      (regGet st bn' k).isSome = true →
      (regGet (jsonLoop c₂ bn bd mf st builds jfs).1 bn' k).isSome = true
  | [], st, builds, h => h
  | jf :: rest, st, builds, h => by
      by_cases hb : basename jf = "build.json"
      · cases hc : c₂ jf with
        | some mod =>
            rw [show jsonLoop c₂ bn bd mf st builds (jf :: rest) =
                jsonLoop c₂ bn bd mf (register st bn jf mod)
                  (descrScan bd (dirname jf) jf builds mf) rest by
              simp [jsonLoop, if_pos hb, hc]]
            refine regGet_jsonLoop_isSome c₂ bn bd mf rest _ _ ?_
            rw [regGet_register]
            by_cases hcase : bn' = bn ∧ k = jf
            · rw [if_pos hcase]
              rfl
            · rw [if_neg hcase]
              exact h
        | none =>
            rw [show jsonLoop c₂ bn bd mf st builds (jf :: rest) =
                jsonLoop c₂ bn bd mf st builds rest by simp [jsonLoop, if_pos hb, hc]]
            exact regGet_jsonLoop_isSome c₂ bn bd mf rest _ _ h
      · rw [show jsonLoop c₂ bn bd mf st builds (jf :: rest) =
            jsonLoop c₂ bn bd mf st builds rest by simp [jsonLoop, if_neg hb]]
        exact regGet_jsonLoop_isSome c₂ bn bd mf rest _ _ h

/-- Every path in the target set returned by `_buildsInBundle` has been
registered, during that same call, as a cache key for the bundle in the
returned registry. -/
theorem regGet_buildsInBundle_target (c₁ c₂ : String → Option ModRec)
    (st : Registry) (bundle : Bundle) (mf jfs : List String) {p : String}
    (hp : p ∈ (buildsInBundle c₁ c₂ st bundle mf jfs).2) :
    (regGet (buildsInBundle c₁ c₂ st bundle mf jfs).1 bundle.name p).isSome
      = true := by
  rw [buildsInBundle_fst]
  rcases (mem_buildsInBundle c₁ c₂ st bundle mf jfs p).mp hp with
    ⟨h1, h2, h3⟩ | ⟨h1, h2, h3, _⟩
  · rcases Option.isSome_iff_exists.mp h3 with ⟨m, hm⟩
    refine regGet_jsonLoop_isSome c₂ bundle.name bundle.buildDirectory
      (sortStrings mf) (sortStrings jfs) _ _ ?_
    rw [regGet_jsLoop_mem c₁ bundle.name h2 hm (sortStrings mf) st []
      (mem_sortStrings.mpr h1)]
    rfl
  · rcases Option.isSome_iff_exists.mp h3 with ⟨m, hm⟩
    rw [regGet_jsonLoop_mem c₂ bundle.name bundle.buildDirectory
      (sortStrings mf) h2 hm (sortStrings jfs) _ _ (mem_sortStrings.mpr h1)]
    rfl

/-! ### Structure of the `buildMeta` object computed by `_getLoaderData` -/

theorem lookupKey_eq_none {α : Type} :
    ∀ {l : List (String × α)} {k : String},
      lookupKey l k = none ↔ k ∉ l.map Prod.fst
  | [], k => by simp [lookupKey]
  | (k₀, v₀) :: t, k => by
      by_cases hk : k₀ = k
      · simp [lookupKey, hk]
      · simp only [lookupKey, hk, if_false, List.map_cons, List.mem_cons]
        rw [lookupKey_eq_none]
        constructor
        · intro h hmem
          rcases hmem with hmem | hmem
          · exact hk hmem.symm
          · exact h hmem
        · intro h hmem
          exact h (Or.inr hmem)

theorem lookupKey_append_of_none {α : Type} :
    ∀ {l₁ : List (String × α)} (l₂ : List (String × α)) {k : String},
      lookupKey l₁ k = none → lookupKey (l₁ ++ l₂) k = lookupKey l₂ k
  | [], l₂, k, _ => rfl
  | (k₀, v₀) :: t, l₂, k, h => by
      by_cases hk : k₀ = k
      · simp [lookupKey, hk] at h
      · simp only [List.cons_append, lookupKey, hk, if_false]
        exact lookupKey_append_of_none l₂ (by simpa [lookupKey, hk] using h)

theorem setKey_of_none {α : Type} :
    ∀ {l : List (String × α)} {k : String} (v : α),
      lookupKey l k = none → setKey l k v = l ++ [(k, v)]
  | [], k, v, _ => rfl
  | (k₀, v₀) :: t, k, v, h => by
      by_cases hk : k₀ = k
      · simp [lookupKey, hk] at h
      · simp only [setKey, hk, if_false, List.cons_append, List.cons.injEq,
          true_and]
        exact setKey_of_none v (by simpa [lookupKey, hk] using h)

theorem setKey_append_single {α : Type} :
    ∀ {l : List (String × α)} {k : String} (x v : α),
      lookupKey l k = none → setKey (l ++ [(k, x)]) k v = l ++ [(k, v)]
  | [], k, x, v, _ => by simp [setKey]
  | (k₀, v₀) :: t, k, x, v, h => by
      by_cases hk : k₀ = k
      · simp [lookupKey, hk] at h
      · simp only [List.cons_append, setKey, hk, if_false, List.cons.injEq,
          true_and]
        exact setKey_append_single x v (by simpa [lookupKey, hk] using h)

theorem lookupKey_append_single_self {α : Type} {l : List (String × α)}
    {k : String} (x : α) (h : lookupKey l k = none) :
    lookupKey (l ++ [(k, x)]) k = some x := by
  rw [lookupKey_append_of_none _ h]
  simp [lookupKey]

/-- The builds of one registered record that pass the filter, in order. -/
def passingBuilds (filter : Option (String → AffConfig → Bool)) (r : ModRec) :
    List (String × BuildRec) :=
  r.builds.filter (fun be => passes filter r.name be.2)

/-- A record keeping its `name` and `buildfile` but carrying the builds
`acc` (the shape accumulated for `buildMeta[mod]`). -/
def accRec (r : ModRec) (acc : List (String × BuildRec)) : ModRec :=
  { name := r.name, buildfile := r.buildfile, builds := acc }

/-- The contribution of one registered record to `buildMeta`: absent when no
build variant passes the filter, otherwise the record with only its passing
builds, keeping `name` and `buildfile`. -/
def metaSpec (filter : Option (String → AffConfig → Bool))
    (e : String × ModRec) : Option (String × ModRec) :=
  let pb := passingBuilds filter e.2
  if pb.isEmpty then none
  else some (e.1, accRec e.2 pb)

theorem buildLoop_present (filter : Option (String → AffConfig → Bool))
    (k : String) (r : ModRec) :
    ∀ (bl : List (String × BuildRec)) (bm₀ : List (String × ModRec))
      (acc : List (String × BuildRec)),
      lookupKey bm₀ k = none →
      ((acc ++ bl).map Prod.fst).Nodup →
      buildLoop filter k r (bm₀ ++ [(k, accRec r acc)]) bl =
        bm₀ ++ [(k, accRec r
          (acc ++ bl.filter (fun be => passes filter r.name be.2)))]
  | [], bm₀, acc, _, _ => by simp [buildLoop]
  | (bKey, bRec) :: rest, bm₀, acc, h0, hnd => by
      by_cases hp : passes filter r.name bRec = true
      · rw [show buildLoop filter k r (bm₀ ++ [(k, accRec r acc)])
            ((bKey, bRec) :: rest) =
          buildLoop filter k r
            (addBuild (bm₀ ++ [(k, accRec r acc)]) k r bKey bRec) rest by
          simp [buildLoop, hp]]
        have hbk : bKey ∉ acc.map Prod.fst := by
          intro hmem
          have := (List.nodup_append.mp (by simpa using hnd)).2.2
          exact this hmem (by simp)
        have hacc : lookupKey acc bKey = none := lookupKey_eq_none.mpr hbk
        rw [show addBuild (bm₀ ++ [(k, accRec r acc)]) k r bKey bRec =
            bm₀ ++ [(k, accRec r (acc ++ [(bKey, bRec)]))] by
          simp only [addBuild, lookupKey_append_single_self _ h0, accRec]
          rw [setKey_of_none _ hacc, setKey_append_single _ _ h0]]
        rw [buildLoop_present filter k r rest bm₀ (acc ++ [(bKey, bRec)]) h0
          (by simpa using hnd)]
        simp [hp]
      · rw [show buildLoop filter k r (bm₀ ++ [(k, accRec r acc)])
            ((bKey, bRec) :: rest) =
          buildLoop filter k r (bm₀ ++ [(k, accRec r acc)]) rest by
          simp [buildLoop, hp]]
        rw [buildLoop_present filter k r rest bm₀ acc h0 (by
          refine List.Nodup.sublist ?_ hnd
          refine List.Sublist.map _ ?_
          exact List.Sublist.append_left (List.sublist_cons_self _ _) _)]
        simp [hp]

theorem buildLoop_absent (filter : Option (String → AffConfig → Bool))
    (k : String) (r : ModRec) :
    ∀ (bl : List (String × BuildRec)) (bm₀ : List (String × ModRec)),
      lookupKey bm₀ k = none →
      (bl.map Prod.fst).Nodup →
      buildLoop filter k r bm₀ bl =
        (if (bl.filter (fun be => passes filter r.name be.2)).isEmpty then bm₀
         else bm₀ ++
           [(k, accRec r (bl.filter (fun be => passes filter r.name be.2)))])
  | [], bm₀, _, _ => by simp [buildLoop]
  | (bKey, bRec) :: rest, bm₀, h0, hnd => by
      by_cases hp : passes filter r.name bRec = true
      · rw [show buildLoop filter k r bm₀ ((bKey, bRec) :: rest) =
          buildLoop filter k r (addBuild bm₀ k r bKey bRec) rest by
            simp [buildLoop, hp]]
        rw [show addBuild bm₀ k r bKey bRec =
          bm₀ ++ [(k, accRec r [(bKey, bRec)])] by rw [addBuild, h0]; rfl]
        rw [buildLoop_present filter k r rest bm₀ [(bKey, bRec)] h0
          (by simpa using hnd)]
        simp [hp]
      · rw [show buildLoop filter k r bm₀ ((bKey, bRec) :: rest) =
          buildLoop filter k r bm₀ rest by simp [buildLoop, hp]]
        rw [buildLoop_absent filter k r rest bm₀ h0 (by
          refine List.Nodup.sublist ?_ hnd
          exact List.Sublist.map _ (List.sublist_cons_self _ _))]
        rw [show List.filter (fun be => passes filter r.name be.2)
            ((bKey, bRec) :: rest) =
          List.filter (fun be => passes filter r.name be.2) rest from
            List.filter_cons_of_neg hp]

theorem metaLoop_eq (filter : Option (String → AffConfig → Bool)) :
    ∀ (rem : List (String × ModRec)) (bm₀ : List (String × ModRec)),
      (∀ e ∈ rem, lookupKey bm₀ e.1 = none) →
      keysNodup rem →
      (∀ e ∈ rem, keysNodup e.2.builds) →
      metaLoop filter bm₀ rem = bm₀ ++ rem.filterMap (metaSpec filter)
  | [], bm₀, _, _, _ => by simp [metaLoop]
  | (k, r) :: rest, bm₀, h0, hnd, hb => by
      rw [show metaLoop filter bm₀ ((k, r) :: rest) =
        metaLoop filter (buildLoop filter k r bm₀ r.builds) rest from rfl]
      rw [buildLoop_absent filter k r r.builds bm₀
        (h0 (k, r) (List.mem_cons_self _ _)) (hb (k, r) (List.mem_cons_self _ _))]
      by_cases he :
        (r.builds.filter (fun be => passes filter r.name be.2)).isEmpty = true
      · rw [if_pos he]
        rw [metaLoop_eq filter rest bm₀
          (fun e hme => h0 e (List.mem_cons_of_mem _ hme))
          ((List.nodup_cons.mp hnd).2)
          (fun e hme => hb e (List.mem_cons_of_mem _ hme))]
        have hspec : metaSpec filter (k, r) = none := by
          simp only [metaSpec, passingBuilds]
          rw [if_pos he]
        simp only [List.filterMap_cons, hspec]
      · rw [if_neg he]
        have hspec : metaSpec filter (k, r) =
            some (k, accRec r
              (r.builds.filter (fun be => passes filter r.name be.2))) := by
          simp only [metaSpec, passingBuilds]
          rw [if_neg he]
        simp only [List.filterMap_cons, hspec]
        rw [metaLoop_eq filter rest
          (bm₀ ++ [(k, accRec r
            (r.builds.filter (fun be => passes filter r.name be.2)))])
          (by
            intro e hme
            have hne : e.1 ≠ k := by
              intro hEq
              have hk : k ∉ rest.map Prod.fst := by
                simpa [keysNodup] using (List.nodup_cons.mp hnd).1
              exact hk (hEq ▸ List.mem_map_of_mem Prod.fst hme)
            rw [lookupKey_append_of_none _ (h0 e (List.mem_cons_of_mem _ hme))]
            simp [lookupKey, Ne.symm hne])
          ((List.nodup_cons.mp hnd).2)
          (fun e hme => hb e (List.mem_cons_of_mem _ hme))]
        simp

/-- Under the registry's key-uniqueness invariants, the `buildMeta` object
computed by `_getLoaderData` is exactly the registered records restricted to
their passing build variants, in registration order, dropping records with
no passing variant. -/
theorem computeBuildMeta_eq (filter : Option (String → AffConfig → Bool))
    {meta : List (String × ModRec)} (hnd : keysNodup meta)
    (hb : ∀ e ∈ meta, keysNodup e.2.builds) :
    computeBuildMeta meta filter = meta.filterMap (metaSpec filter) := by
  rw [computeBuildMeta, metaLoop_eq filter meta [] (fun _ _ => rfl) hnd hb]
  simp

/-! ### Duplicate-freeness of the accumulated target set -/

theorem nodup_jsLoop (c₁ : String → Option ModRec) (bn : String) :
    ∀ (files : List String) (st : Registry) (builds : List String),
      builds.Nodup → (jsLoop c₁ bn st builds files).2.Nodup
  | [], st, builds, h => h
  | file :: rest, st, builds, h => by
      by_cases hcond : shiftableJs bn file
      · cases hc : c₁ file with
        | some mod =>
            rw [show jsLoop c₁ bn st builds (file :: rest) =
                jsLoop c₁ bn (register st bn file mod) (addKey builds file) rest by
              simp [jsLoop, if_pos hcond, hc]]
            exact nodup_jsLoop c₁ bn rest _ _ (nodup_addKey file h)
        | none =>
            rw [show jsLoop c₁ bn st builds (file :: rest) =
                jsLoop c₁ bn st builds rest by simp [jsLoop, if_pos hcond, hc]]
            exact nodup_jsLoop c₁ bn rest _ _ h
      · rw [show jsLoop c₁ bn st builds (file :: rest) =
            jsLoop c₁ bn st builds rest by simp [jsLoop, if_neg hcond]]
        exact nodup_jsLoop c₁ bn rest _ _ h

theorem nodup_descrScan (bd dir jf : String) :
    ∀ (files : List String) (builds : List String),
      builds.Nodup → (descrScan bd dir jf builds files).Nodup
  | [], builds, h => h
  | file :: rest, builds, h => by
      rw [show descrScan bd dir jf builds (file :: rest) =
          descrScan bd dir jf
            (if jsTriggers bd dir file then
              addKey (if file = jf then addKey builds jf else builds) jf
             else if file = jf then addKey builds jf else builds) rest from rfl]
      refine nodup_descrScan bd dir jf rest _ ?_
      by_cases h2 : jsTriggers bd dir file
      · rw [if_pos h2]
        by_cases h1 : file = jf
        · rw [if_pos h1]
          exact nodup_addKey jf (nodup_addKey jf h)
        · rw [if_neg h1]
          exact nodup_addKey jf h
      · rw [if_neg h2]
        by_cases h1 : file = jf
        · rw [if_pos h1]
          exact nodup_addKey jf h
        · rw [if_neg h1]
          exact h

theorem nodup_jsonLoop (c₂ : String → Option ModRec) (bn bd : String)
    (mf : List String) :
    ∀ (jfs : List String) (st : Registry) (builds : List String),
      builds.Nodup → (jsonLoop c₂ bn bd mf st builds jfs).2.Nodup
  | [], st, builds, h => h
  | jf :: rest, st, builds, h => by
      by_cases hb : basename jf = "build.json"
      · cases hc : c₂ jf with
        | some mod =>
            rw [show jsonLoop c₂ bn bd mf st builds (jf :: rest) =
                jsonLoop c₂ bn bd mf (register st bn jf mod)
                  (descrScan bd (dirname jf) jf builds mf) rest by
              simp [jsonLoop, if_pos hb, hc]]
            exact nodup_jsonLoop c₂ bn bd mf rest _ _
              (nodup_descrScan bd (dirname jf) jf mf builds h)
        | none =>
            rw [show jsonLoop c₂ bn bd mf st builds (jf :: rest) =
                jsonLoop c₂ bn bd mf st builds rest by simp [jsonLoop, if_pos hb, hc]]
            exact nodup_jsonLoop c₂ bn bd mf rest _ _ h
      · rw [show jsonLoop c₂ bn bd mf st builds (jf :: rest) =
            jsonLoop c₂ bn bd mf st builds rest by simp [jsonLoop, if_neg hb]]
        exact nodup_jsonLoop c₂ bn bd mf rest _ _ h

/-! ### Characterization of `_getLoaderData` -/

theorem getLoaderData_eq (st : Registry) (bn : String)
    (filter : Option (String → AffConfig → Bool))
    (hnd : keysNodup ((lookupKey st bn).getD []))
    (hb : ∀ e ∈ (lookupKey st bn).getD [], keysNodup e.2.builds) :
    getLoaderData st bn filter =
      (if (((lookupKey st bn).getD []).filterMap (metaSpec filter)).isEmpty then
        none
       else some (builderCompile bn
         (((lookupKey st bn).getD []).filterMap (metaSpec filter)))) := by
  show (if (computeBuildMeta ((lookupKey st bn).getD []) filter).isEmpty = true
      then none
      else if (builderCompile bn
          (computeBuildMeta ((lookupKey st bn).getD []) filter)).json.isEmpty = true
        then none
        else some (builderCompile bn
          (computeBuildMeta ((lookupKey st bn).getD []) filter))) = _
  rw [computeBuildMeta_eq filter hnd hb]
  by_cases he : (((lookupKey st bn).getD []).filterMap (metaSpec filter)).isEmpty
  · simp [he]
  · have hj : (builderCompile bn
        (((lookupKey st bn).getD []).filterMap (metaSpec filter))).json.isEmpty
        = false := by
      rw [builderCompile]
      cases hc : ((lookupKey st bn).getD []).filterMap (metaSpec filter) with
      | nil => rw [hc] at he; exact absurd rfl he
      | cons a t => simp
    simp [he, hj]

/-! ### Base-name facts -/

theorem extname_eq_of_basename {p b : String} (h : basename p = b) :
    extname p = extnameOfBase b := by
  rw [extname, h]

theorem loader_name_ne_buildjson (s : String) :
    "loader-" ++ s ++ ".js" ≠ "build.json" := by
  intro h
  have hlen := congrArg String.length h
  rw [String.length_append, String.length_append] at hlen
  rw [show ("loader-" : String).length = 7 from rfl,
    show (".js" : String).length = 3 from rfl,
    show ("build.json" : String).length = 10 from rfl] at hlen
  have hs : s.length = 0 := by omega
  have hdata : s.data = [] := List.length_eq_zero.mp hs
  have hempty : s = "" := by
    cases s with
    | mk d => exact congrArg String.mk hdata
  rw [hempty] at h
  exact absurd h (by decide)

/-! ### Concrete sample data used by the witnesses -/

/-- A build variant with no affinity configured. -/
def sampleBuild : BuildRec := {}

/-- A minimal module-metadata record. -/
def sampleMod : ModRec :=
  { name := "foo", buildfile := "a/x/foo.js", builds := [("foo", sampleBuild)] }

/-- A minimal bundle. -/
def sampleBundle : Bundle := { name := "app", buildDirectory := "a/build" }

/-! ### The claims -/

/-- C1: a valid `build.json` descriptor (base name `build.json`, listed among
the descriptor files, accepted by the descriptor check) is in the target set
returned by `_buildsInBundle` if and only if it appears in the modified-file
list itself, or some modified file with extension `.js` lies under the
descriptor's directory (`file.indexOf(dir) === 0`, i.e. the directory is a
front segment of the path) and outside the bundle's build output directory
(`file.indexOf(buildDirectory) === -1`, i.e. the build directory does not
occur in the path); in particular a `.js` change inside the build output
directory alone never targets the descriptor. -/
theorem buildsInBundle_descriptor_iff (c₁ c₂ : String → Option ModRec)
    (st : Registry) (bundle : Bundle) (mf jfs : List String) {p : String}
    (hb : basename p = "build.json") (hj : p ∈ jfs)
    (hv : (c₂ p).isSome = true) :
    p ∈ (buildsInBundle c₁ c₂ st bundle mf jfs).2 ↔
      (p ∈ mf ∨ ∃ f ∈ mf, extname f = ".js" ∧
        strHasFront (dirname p) f = true ∧
        occursIn bundle.buildDirectory f = false) := by
  rw [mem_buildsInBundle]
  constructor
  · rintro (⟨h1, h2, h3⟩ | ⟨h1, h2, h3, h4⟩)
    · exfalso
      have hext := h2.1
      rw [extname_eq_of_basename hb] at hext
      exact absurd hext (by decide)
    · rcases h4 with ⟨f, hf, hor⟩
      rcases hor with rfl | htrig
      · exact Or.inl hf
      · exact Or.inr ⟨f, hf, htrig.1, htrig.2.1, htrig.2.2⟩
  · intro h
    refine Or.inr ⟨hj, hb, hv, ?_⟩
    rcases h with hp | ⟨f, hf, h1, h2, h3⟩
    · exact ⟨p, hp, Or.inl rfl⟩
    · exact ⟨f, hf, Or.inr ⟨h1, h2, h3⟩⟩

theorem buildsInBundle_descriptor_iff_witness :
    "a/x/build.json" ∈ (buildsInBundle (fun _ => none) (fun _ => some sampleMod)
      [] sampleBundle ["a/x/y.js"] ["a/x/build.json"]).2 :=
  (buildsInBundle_descriptor_iff (fun _ => none) (fun _ => some sampleMod) []
      sampleBundle ["a/x/y.js"] ["a/x/build.json"]
      (by decide) (by decide) (by decide)).mpr
    (Or.inr ⟨"a/x/y.js", by decide, by decide, by decide, by decide⟩)

/-- C2: `_buildsInBundle` is deterministic and insensitive to the order of
its two input lists: permuting `modifiedFiles` and `buildDescriptorFiles`
yields the same target list, which is lexicographically sorted and free of
duplicates. -/
theorem buildsInBundle_perm_invariant (c₁ c₂ : String → Option ModRec)
    (st : Registry) (bundle : Bundle) {mf₁ mf₂ jf₁ jf₂ : List String}
    (hm : List.Perm mf₁ mf₂) (hj : List.Perm jf₁ jf₂) :
    (buildsInBundle c₁ c₂ st bundle mf₁ jf₁).2 =
      (buildsInBundle c₁ c₂ st bundle mf₂ jf₂).2 ∧
    List.Sorted strLeP (buildsInBundle c₁ c₂ st bundle mf₁ jf₁).2 ∧
    (buildsInBundle c₁ c₂ st bundle mf₁ jf₁).2.Nodup := by
  refine ⟨?_, ?_, ?_⟩
  · unfold buildsInBundle
    rw [sortStrings_eq_of_perm hm, sortStrings_eq_of_perm hj]
  · exact sortStrings_sorted _
  · refine sortStrings_nodup ?_
    refine nodup_jsonLoop c₂ bundle.name bundle.buildDirectory _ _ _ _ ?_
    exact nodup_jsLoop c₁ bundle.name _ st [] List.nodup_nil

theorem buildsInBundle_perm_invariant_witness :
    (buildsInBundle (fun _ => some sampleMod) (fun _ => none) [] sampleBundle
        ["b.js", "a.js"] ["x.json"]).2 =
      (buildsInBundle (fun _ => some sampleMod) (fun _ => none) [] sampleBundle
        ["a.js", "b.js"] ["x.json"]).2 ∧
    List.Sorted strLeP (buildsInBundle (fun _ => some sampleMod) (fun _ => none)
      [] sampleBundle ["b.js", "a.js"] ["x.json"]).2 ∧
    (buildsInBundle (fun _ => some sampleMod) (fun _ => none) [] sampleBundle
      ["b.js", "a.js"] ["x.json"]).2.Nodup :=
  buildsInBundle_perm_invariant (fun _ => some sampleMod) (fun _ => none) []
    sampleBundle (by decide) (by decide)

/-- C4: a modified `.js` file whose base name is exactly
`loader-<bundleName>.js` is never in the target set returned by
`_buildsInBundle`, even when the module check would accept it: the first
loop excludes it by name, and the descriptor loop only ever adds paths whose
base name is `build.json`. -/
theorem buildsInBundle_loader_excluded (c₁ c₂ : String → Option ModRec)
    (st : Registry) (bundle : Bundle) (mf jfs : List String) {p : String}
    (h : basename p = "loader-" ++ bundle.name ++ ".js") :
    p ∉ (buildsInBundle c₁ c₂ st bundle mf jfs).2 := by
  rw [mem_buildsInBundle]
  rintro (⟨_, h2, _⟩ | ⟨_, h2, _⟩)
  · exact h2.2 h
  · rw [h] at h2
    exact loader_name_ne_buildjson bundle.name h2

theorem buildsInBundle_loader_excluded_witness :
    "sub/loader-app.js" ∉ (buildsInBundle (fun _ => some sampleMod)
      (fun _ => some sampleMod) [] sampleBundle ["sub/loader-app.js"] []).2 :=
  buildsInBundle_loader_excluded (fun _ => some sampleMod)
    (fun _ => some sampleMod) [] sampleBundle ["sub/loader-app.js"] []
    (by decide)

theorem filterFilesInBundle_nil (bundle : Bundle)
    (ff : Option (Bundle → String → Bool)) :
    filterFilesInBundle bundle [] ff = [] := by
  cases ff <;> rfl

theorem buildsInBundle_empty_mf (c₁ c₂ : String → Option ModRec)
    (st : Registry) (bundle : Bundle) (jfs : List String) :
    (buildsInBundle c₁ c₂ st bundle [] jfs).2 = [] := by
  refine List.eq_nil_iff_forall_not_mem.mpr ?_
  intro p hp
  rcases (mem_buildsInBundle c₁ c₂ st bundle [] jfs p).mp hp with
    ⟨h1, _⟩ | ⟨_, _, _, h4⟩
  · exact List.not_mem_nil p h1
  · rcases h4 with ⟨f, hf, _⟩
    exact List.not_mem_nil f hf

theorem bundleUpdated_early (c₁ c₂ : String → Option ModRec)
    (ff : Option (Bundle → String → Bool))
    (wf : String → String → String → Option String)
    (st : Registry) (bundle : Bundle) (evtFiles jfs : List String)
    (h : lookupKey (buildsInBundle c₁ c₂ st bundle
        (filterFilesInBundle bundle evtFiles ff) jfs).1 bundle.name = none ∨
      (buildsInBundle c₁ c₂ st bundle
        (filterFilesInBundle bundle evtFiles ff) jfs).2 = []) :
    bundleUpdated c₁ c₂ ff wf st bundle evtFiles jfs =
      ((buildsInBundle c₁ c₂ st bundle
        (filterFilesInBundle bundle evtFiles ff) jfs).1, bundle, none) := by
  dsimp only [bundleUpdated]
  rw [if_pos h]

theorem bundleUpdated_runs (c₁ c₂ : String → Option ModRec)
    (ff : Option (Bundle → String → Bool))
    (wf : String → String → String → Option String)
    (st : Registry) (bundle : Bundle) (evtFiles jfs : List String)
    (h : ¬(lookupKey (buildsInBundle c₁ c₂ st bundle
        (filterFilesInBundle bundle evtFiles ff) jfs).1 bundle.name = none ∨
      (buildsInBundle c₁ c₂ st bundle
        (filterFilesInBundle bundle evtFiles ff) jfs).2 = [])) :
    (bundleUpdated c₁ c₂ ff wf st bundle evtFiles jfs).2.2 ≠ none := by
  dsimp only [bundleUpdated]
  rw [if_neg h]
  simp

/-- C7: with an empty modified-file list, `_buildsInBundle` returns an empty
target set, and `bundleUpdated` takes its early no-op return regardless of
the registry's contents: the bundle is returned untouched (no loader data
attached) and no effects — no artifact write, no shifter invocation — are
requested. -/
theorem bundleUpdated_noop_on_empty (c₁ c₂ : String → Option ModRec)
    (ff : Option (Bundle → String → Bool))
    (wf : String → String → String → Option String)
    (st : Registry) (bundle : Bundle) (jfs : List String) :
    (buildsInBundle c₁ c₂ st bundle
      (filterFilesInBundle bundle [] ff) jfs).2 = [] ∧
    (bundleUpdated c₁ c₂ ff wf st bundle [] jfs).2.1 = bundle ∧
    (bundleUpdated c₁ c₂ ff wf st bundle [] jfs).2.2 = none := by
  have hempty : (buildsInBundle c₁ c₂ st bundle
      (filterFilesInBundle bundle [] ff) jfs).2 = [] := by
    rw [filterFilesInBundle_nil]
    exact buildsInBundle_empty_mf c₁ c₂ st bundle jfs
  have hearly := bundleUpdated_early c₁ c₂ ff wf st bundle [] jfs (Or.inr hempty)
  exact ⟨hempty, by rw [hearly], by rw [hearly]⟩

/-- C9: every path in the target set returned by `_buildsInBundle` has been
registered, during that same call, as a cache key for the bundle; hence a
non-empty target set implies the registry's mapping for the bundle is
present, and `bundleUpdated`'s `!meta` early-return guard cannot fire when
the target set is non-empty. -/
theorem buildsInBundle_targets_registered (c₁ c₂ : String → Option ModRec)
    (st : Registry) (bundle : Bundle) (mf jfs : List String) :
    (∀ p ∈ (buildsInBundle c₁ c₂ st bundle mf jfs).2,
      (regGet (buildsInBundle c₁ c₂ st bundle mf jfs).1 bundle.name p).isSome
        = true) ∧
    ((buildsInBundle c₁ c₂ st bundle mf jfs).2 ≠ [] →
      lookupKey (buildsInBundle c₁ c₂ st bundle mf jfs).1 bundle.name ≠ none) ∧
    (∀ (ff : Option (Bundle → String → Bool))
      (wf : String → String → String → Option String) (evtFiles : List String),
      (buildsInBundle c₁ c₂ st bundle
        (filterFilesInBundle bundle evtFiles ff) jfs).2 ≠ [] →
      (bundleUpdated c₁ c₂ ff wf st bundle evtFiles jfs).2.2 ≠ none) := by
  have hmain : ∀ (mf' : List String),
      ∀ p ∈ (buildsInBundle c₁ c₂ st bundle mf' jfs).2,
      (regGet (buildsInBundle c₁ c₂ st bundle mf' jfs).1 bundle.name p).isSome
        = true :=
    fun mf' p hp => regGet_buildsInBundle_target c₁ c₂ st bundle mf' jfs hp
  have hsome : ∀ (mf' : List String),
      (buildsInBundle c₁ c₂ st bundle mf' jfs).2 ≠ [] →
      lookupKey (buildsInBundle c₁ c₂ st bundle mf' jfs).1 bundle.name ≠ none := by
    intro mf' hne
    rcases List.exists_mem_of_ne_nil _ hne with ⟨p, hp⟩
    exact regGet_isSome_lookupKey (hmain mf' p hp)
  refine ⟨hmain mf, hsome mf, ?_⟩
  intro ff wf evtFiles hne
  refine bundleUpdated_runs c₁ c₂ ff wf st bundle evtFiles jfs ?_
  rintro (h | h)
  · exact hsome _ hne h
  · exact hne h

theorem buildsInBundle_targets_registered_witness :
    (bundleUpdated (fun _ => some sampleMod) (fun _ => none) none
      (fun _ _ _ => some "w") [] sampleBundle ["a/x/y.js"] []).2.2 ≠ none :=
  (buildsInBundle_targets_registered (fun _ => some sampleMod) (fun _ => none)
    [] sampleBundle ["a/x/y.js"] []).2.2 none (fun _ _ _ => some "w")
    ["a/x/y.js"] (by decide)

theorem ext_js_ne_buildjson {p : String} (h : extname p = ".js") :
    basename p ≠ "build.json" := by
  intro hb
  rw [extname_eq_of_basename hb] at h
  exact absurd h (by decide)

/-- C6: a `build.json` file rejected by the descriptor check is skipped
entirely — neither registered nor targeted; a `.js` file rejected by the
module check is likewise neither registered nor targeted; and in both cases
the scan continues: any other modified `.js` file accepted by the module
check is still targeted. -/
theorem buildsInBundle_skips_failing (c₁ c₂ : String → Option ModRec)
    (st : Registry) (bundle : Bundle) (mf jfs : List String) :
    (∀ j ∈ jfs, basename j = "build.json" → c₂ j = none →
      j ∉ (buildsInBundle c₁ c₂ st bundle mf jfs).2 ∧
      regGet (buildsInBundle c₁ c₂ st bundle mf jfs).1 bundle.name j =
        regGet st bundle.name j) ∧
    (∀ f ∈ mf, extname f = ".js" → c₁ f = none →
      f ∉ (buildsInBundle c₁ c₂ st bundle mf jfs).2 ∧
      regGet (buildsInBundle c₁ c₂ st bundle mf jfs).1 bundle.name f =
        regGet st bundle.name f) ∧
    (∀ g ∈ mf, shiftableJs bundle.name g → (c₁ g).isSome = true →
      g ∈ (buildsInBundle c₁ c₂ st bundle mf jfs).2) := by
  refine ⟨?_, ?_, ?_⟩
  · intro j hj hb hc
    constructor
    · rw [mem_buildsInBundle]
      rintro (⟨_, h2, _⟩ | ⟨_, _, h3, _⟩)
      · exact ext_js_ne_buildjson h2.1 hb
      · rw [hc] at h3
        exact Bool.false_ne_true h3
    · rw [buildsInBundle_fst]
      rw [regGet_jsonLoop_skip c₂ bundle.name bundle.buildDirectory
        (sortStrings mf) (fun hh => by rw [hc] at hh; simp at hh)]
      rw [regGet_jsLoop_skip c₁ bundle.name
        (fun hh => ext_js_ne_buildjson hh.1.1 hb)]
  · intro f hf he hc
    constructor
    · rw [mem_buildsInBundle]
      rintro (⟨_, _, h3⟩ | ⟨_, h2, _⟩)
      · rw [hc] at h3
        exact Bool.false_ne_true h3
      · exact ext_js_ne_buildjson he h2
    · rw [buildsInBundle_fst]
      rw [regGet_jsonLoop_skip c₂ bundle.name bundle.buildDirectory
        (sortStrings mf) (fun hh => ext_js_ne_buildjson he hh.1)]
      rw [regGet_jsLoop_skip c₁ bundle.name
        (fun hh => by rw [hc] at hh; simp at hh)]
  · intro g hg hs hc
    rw [mem_buildsInBundle]
    exact Or.inl ⟨hg, hs, hc⟩

theorem buildsInBundle_skips_failing_witness :
    "a/bad/build.json" ∉ (buildsInBundle
      (fun f => if f = "a/g.js" then some sampleMod else none) (fun _ => none)
      [] sampleBundle ["a/f.js", "a/g.js"] ["a/bad/build.json"]).2 ∧
    regGet (buildsInBundle
      (fun f => if f = "a/g.js" then some sampleMod else none) (fun _ => none)
      [] sampleBundle ["a/f.js", "a/g.js"] ["a/bad/build.json"]).1
      sampleBundle.name "a/bad/build.json" =
      regGet [] sampleBundle.name "a/bad/build.json" ∧
    "a/f.js" ∉ (buildsInBundle
      (fun f => if f = "a/g.js" then some sampleMod else none) (fun _ => none)
      [] sampleBundle ["a/f.js", "a/g.js"] ["a/bad/build.json"]).2 ∧
    "a/g.js" ∈ (buildsInBundle
      (fun f => if f = "a/g.js" then some sampleMod else none) (fun _ => none)
      [] sampleBundle ["a/f.js", "a/g.js"] ["a/bad/build.json"]).2 := by
  have h := buildsInBundle_skips_failing
    (fun f => if f = "a/g.js" then some sampleMod else none) (fun _ => none)
    [] sampleBundle ["a/f.js", "a/g.js"] ["a/bad/build.json"]
  have h1 := h.1 "a/bad/build.json" (by decide) (by decide) rfl
  have h2 := h.2.1 "a/f.js" (by decide) (by decide) (by decide)
  have h3 := h.2.2 "a/g.js" (by decide) (by decide) (by decide)
  exact ⟨h1.1, h1.2, h2.1, h3⟩

theorem metaSpec_eq_none_iff (filter : Option (String → AffConfig → Bool))
    (e : String × ModRec) :
    metaSpec filter e = none ↔ passingBuilds filter e.2 = [] := by
  by_cases h : (passingBuilds filter e.2).isEmpty = true
  · rw [show metaSpec filter e = none by
      simp only [metaSpec]
      rw [if_pos h]]
    simp [List.isEmpty_iff.mp h]
  · rw [show metaSpec filter e =
        some (e.1, accRec e.2 (passingBuilds filter e.2)) by
      simp only [metaSpec]
      rw [if_neg h]]
    constructor
    · intro hx
      exact Option.noConfusion hx
    · intro hx
      exact absurd (List.isEmpty_iff.mpr hx) h

theorem metaSpec_eq_some_of_ne (filter : Option (String → AffConfig → Bool))
    (e : String × ModRec) (h : passingBuilds filter e.2 ≠ []) :
    metaSpec filter e = some (e.1, accRec e.2 (passingBuilds filter e.2)) := by
  simp only [metaSpec]
  rw [if_neg (fun hh => h (List.isEmpty_iff.mp hh))]

theorem metaSpec_eq_some (filter : Option (String → AffConfig → Bool))
    (e : String × ModRec) (x : String × ModRec)
    (h : metaSpec filter e = some x) :
    x = (e.1, accRec e.2 (passingBuilds filter e.2)) ∧
      passingBuilds filter e.2 ≠ [] := by
  by_cases hne : passingBuilds filter e.2 = []
  · rw [(metaSpec_eq_none_iff filter e).mpr hne] at h
    exact Option.noConfusion h
  · rw [metaSpec_eq_some_of_ne filter e hne] at h
    exact ⟨(Option.some_inj.mp h).symm, hne⟩

theorem mem_setKey_of_ne {α : Type} :
    ∀ {l : List (String × α)} {x : String × α} {k : String} (v : α),
      x ∈ l → x.1 ≠ k → x ∈ setKey l k v
  | [], x, k, v, hx, _ => absurd hx (List.not_mem_nil x)
  | (k₀, v₀) :: t, x, k, v, hx, hne => by
      by_cases hk : k₀ = k
      · simp only [setKey, hk, if_true]
        rcases List.mem_cons.mp hx with hx | hx
        · exfalso
          apply hne
          rw [hx, hk]
        · exact List.mem_cons_of_mem _ hx
      · simp only [setKey, hk, if_false]
        rcases List.mem_cons.mp hx with hx | hx
        · rw [hx]
          exact List.mem_cons_self _ _
        · exact List.mem_cons_of_mem _ (mem_setKey_of_ne v hx hne)

/-- Shared characterization of `_getLoaderData` under an affinity filter:
absent exactly when no registered build variant passes; otherwise the
`json` mapping contains exactly the registered modules with at least one
passing variant, keyed by name and keeping `name` and `buildfile`. -/
theorem getLoaderData_filter_split (st : Registry) (bn : String)
    (f : String → AffConfig → Bool)
    (hnd : keysNodup ((lookupKey st bn).getD []))
    (hb : ∀ e ∈ (lookupKey st bn).getD [], keysNodup e.2.builds)
    (hn : (((lookupKey st bn).getD []).map (fun e => e.2.name)).Nodup) :
    (getLoaderData st bn (some f) = none ↔
      ∀ e ∈ (lookupKey st bn).getD [], ∀ be ∈ e.2.builds,
        f e.2.name (effConfig be.2) = false) ∧
    (∀ d, getLoaderData st bn (some f) = some d →
      (∀ e ∈ (lookupKey st bn).getD [],
        ((∃ be ∈ e.2.builds, f e.2.name (effConfig be.2) = true) ↔
          (e.2.name, JsonEntry.moduleEntry e.2.name e.2.buildfile
            (passingBuilds (some f) e.2)) ∈ d.json)) ∧
      (∀ je ∈ d.json, ∃ e ∈ (lookupKey st bn).getD [],
        (∃ be ∈ e.2.builds, f e.2.name (effConfig be.2) = true) ∧
        je = (e.2.name, JsonEntry.moduleEntry e.2.name e.2.buildfile
          (passingBuilds (some f) e.2)))) := by
  have heq := getLoaderData_eq st bn (some f) hnd hb
  constructor
  · rw [heq]
    by_cases he :
      (((lookupKey st bn).getD []).filterMap (metaSpec (some f))).isEmpty = true
    · rw [if_pos he]
      constructor
      · intro _ e hme be hbe
        have hnil := List.isEmpty_iff.mp he
        have hsp := List.filterMap_eq_nil_iff.mp hnil e hme
        have hpb := (metaSpec_eq_none_iff (some f) e).mp hsp
        have hnp := List.filter_eq_nil_iff.mp hpb be hbe
        rw [show passes (some f) e.2.name be.2 =
          f e.2.name (effConfig be.2) from rfl] at hnp
        exact Bool.eq_false_iff.mpr hnp
      · intro _
        rfl
    · rw [if_neg he]
      constructor
      · intro hx
        exact Option.noConfusion hx
      · intro hall
        exfalso
        apply he
        refine List.isEmpty_iff.mpr (List.filterMap_eq_nil_iff.mpr ?_)
        intro e hme
        refine (metaSpec_eq_none_iff (some f) e).mpr ?_
        refine List.filter_eq_nil_iff.mpr ?_
        intro be hbe hTrue
        rw [show passes (some f) e.2.name be.2 =
          f e.2.name (effConfig be.2) from rfl] at hTrue
        rw [hall e hme be hbe] at hTrue
        exact Bool.false_ne_true hTrue
  · intro d hd
    rw [heq] at hd
    by_cases he :
      (((lookupKey st bn).getD []).filterMap (metaSpec (some f))).isEmpty = true
    · rw [if_pos he] at hd
      exact Option.noConfusion hd
    · rw [if_neg he] at hd
      have hdj : d.json =
          ((((lookupKey st bn).getD []).filterMap (metaSpec (some f))).map
            (fun x => (x.2.name,
              JsonEntry.moduleEntry x.2.name x.2.buildfile x.2.builds))) := by
        rw [← Option.some_inj.mp hd]
        rfl
      constructor
      · intro e hme
        constructor
        · rintro ⟨be, hbe, hpass⟩
          rw [hdj]
          refine List.mem_map.mpr
            ⟨(e.1, accRec e.2 (passingBuilds (some f) e.2)), ?_, ?_⟩
          · refine List.mem_filterMap.mpr ⟨e, hme, ?_⟩
            refine metaSpec_eq_some_of_ne (some f) e ?_
            intro hnil
            have hnp := List.filter_eq_nil_iff.mp hnil be hbe
            rw [show passes (some f) e.2.name be.2 =
              f e.2.name (effConfig be.2) from rfl, hpass] at hnp
            exact hnp rfl
          · simp [accRec]
        · intro hmem
          rw [hdj] at hmem
          rcases List.mem_map.mp hmem with ⟨x, hx, hgx⟩
          rcases List.mem_filterMap.mp hx with ⟨e', hme', hspec⟩
          rcases metaSpec_eq_some (some f) e' x hspec with ⟨hxval, hne⟩
          have hname : e'.2.name = e.2.name := by
            have hfst := congrArg Prod.fst hgx
            rw [hxval] at hfst
            simpa [accRec] using hfst
          have hee : e' = e := List.inj_on_of_nodup_map hn hme' hme hname
          rw [← hee]
          obtain ⟨be, hbe⟩ := List.exists_mem_of_ne_nil _ hne
          have hbe' := List.mem_filter.mp hbe
          exact ⟨be, hbe'.1, hbe'.2⟩
      · intro je hje
        rw [hdj] at hje
        rcases List.mem_map.mp hje with ⟨x, hx, hgx⟩
        rcases List.mem_filterMap.mp hx with ⟨e, hme, hspec⟩
        rcases metaSpec_eq_some (some f) e x hspec with ⟨hxval, hne⟩
        obtain ⟨be, hbe⟩ := List.exists_mem_of_ne_nil _ hne
        have hbe' := List.mem_filter.mp hbe
        refine ⟨e, hme, ⟨be, hbe'.1, hbe'.2⟩, ?_⟩
        rw [← hgx, hxval]
        simp [accRec]

/-- C3: with an affinity filter, `_getLoaderData` returns an absent value
exactly when no registered build variant passes the filter; otherwise it
returns a `{json, js}` pair whose `json` mapping contains exactly the
registered modules with at least one passing variant, each keyed by and
keeping its `name` and keeping its `buildfile`.  The hypotheses are the
registry's structural invariants: cache keys, build-variant keys, and
module names are duplicate-free. -/
theorem getLoaderData_filter_spec (st : Registry) (bn : String)
    (f : String → AffConfig → Bool)
    (hnd : keysNodup ((lookupKey st bn).getD []))
    (hb : ∀ e ∈ (lookupKey st bn).getD [], keysNodup e.2.builds)
    (hn : (((lookupKey st bn).getD []).map (fun e => e.2.name)).Nodup) :
    (getLoaderData st bn (some f) = none ↔
      ∀ e ∈ (lookupKey st bn).getD [], ∀ be ∈ e.2.builds,
        f e.2.name (effConfig be.2) = false) ∧
    (∀ d, getLoaderData st bn (some f) = some d →
      (∀ e ∈ (lookupKey st bn).getD [],
        ((∃ be ∈ e.2.builds, f e.2.name (effConfig be.2) = true) ↔
          (e.2.name, JsonEntry.moduleEntry e.2.name e.2.buildfile
            (passingBuilds (some f) e.2)) ∈ d.json)) ∧
      (∀ je ∈ d.json, ∃ e ∈ (lookupKey st bn).getD [],
        (∃ be ∈ e.2.builds, f e.2.name (effConfig be.2) = true) ∧
        je = (e.2.name, JsonEntry.moduleEntry e.2.name e.2.buildfile
          (passingBuilds (some f) e.2)))) :=
  getLoaderData_filter_split st bn f hnd hb hn

theorem getLoaderData_filter_spec_witness :
    (getLoaderData [("app", [("a/x/foo.js", sampleMod)])] "app"
        (some clientFilter) = none ↔
      ∀ e ∈ ((lookupKey
          ([("app", [("a/x/foo.js", sampleMod)])] : Registry) "app").getD []),
        ∀ be ∈ e.2.builds,
          clientFilter e.2.name (effConfig be.2) = false) :=
  (getLoaderData_filter_spec [("app", [("a/x/foo.js", sampleMod)])] "app"
    clientFilter (by decide) (by decide) (by decide)).1

/-- C5: whenever `_createClientLoaderData` (called, as in `bundleUpdated`,
with the meta-module name `loader-<bundleName>`) returns a present value,
its `json` mapping holds the synthetic entry
`{ group: bundleName, affinity: 'client' }` under the key
`loader-<bundleName>`, in addition to every registered module with a build
variant surviving the client filter — the filter keeps every variant whose
affinity is not `server`, so variants with no affinity set pass.  The
freshness hypothesis states that no registered module is itself named
`loader-<bundleName>` (the name is reserved for the synthetic meta module). -/
theorem createClientLoaderData_meta_entry (st : Registry) (bundle : Bundle)
    (hnd : keysNodup ((lookupKey st bundle.name).getD []))
    (hb : ∀ e ∈ (lookupKey st bundle.name).getD [], keysNodup e.2.builds)
    (hn : (((lookupKey st bundle.name).getD []).map
      (fun e => e.2.name)).Nodup)
    (hfresh : ∀ e ∈ (lookupKey st bundle.name).getD [],
      e.2.name ≠ "loader-" ++ bundle.name)
    {d : BuilderData}
    (hd : createClientLoaderData st bundle ("loader-" ++ bundle.name)
      = some d) :
    lookupKey d.json ("loader-" ++ bundle.name) =
      some (JsonEntry.metaEntry bundle.name "client") ∧
    ∀ e ∈ (lookupKey st bundle.name).getD [],
      (∃ be ∈ e.2.builds, (effConfig be.2).affinity ≠ some "server") →
      (e.2.name, JsonEntry.moduleEntry e.2.name e.2.buildfile
        (passingBuilds (some clientFilter) e.2)) ∈ d.json := by
  cases hgd : getLoaderData st bundle.name (some clientFilter) with
  | none =>
      rw [show createClientLoaderData st bundle ("loader-" ++ bundle.name)
        = none by simp [createClientLoaderData, hgd]] at hd
      exact Option.noConfusion hd
  | some d0 =>
      rw [show createClientLoaderData st bundle ("loader-" ++ bundle.name) =
          some { d0 with json := (setKey d0.json ("loader-" ++ bundle.name)
            (JsonEntry.metaEntry bundle.name "client")) } by
        simp [createClientLoaderData, hgd]] at hd
      have hdval := Option.some_inj.mp hd
      constructor
      · rw [← hdval]
        exact lookupKey_setKey_self d0.json ("loader-" ++ bundle.name)
          (JsonEntry.metaEntry bundle.name "client")
      · intro e hme hpass
        have hiff := ((getLoaderData_filter_split st bundle.name clientFilter
          hnd hb hn).2 d0 hgd).1 e hme
        have hmem : (e.2.name, JsonEntry.moduleEntry e.2.name e.2.buildfile
            (passingBuilds (some clientFilter) e.2)) ∈ d0.json := by
          refine hiff.mp ?_
          rcases hpass with ⟨be, hbe, hba⟩
          exact ⟨be, hbe, by
            rw [show clientFilter e.2.name (effConfig be.2) =
              decide ((effConfig be.2).affinity ≠ some "server") from rfl]
            exact decide_eq_true hba⟩
        rw [← hdval]
        exact mem_setKey_of_ne _ hmem (hfresh e hme)

/-- The concrete client loader data produced from a one-module registry,
used to witness the claim about `_createClientLoaderData`. -/
def sampleClientData : BuilderData :=
  { json := [("foo", JsonEntry.moduleEntry "foo" "a/x/foo.js"
      [("foo", sampleBuild)]),
     ("loader-app", JsonEntry.metaEntry "app" "client")],
    js := "loader-app:foo" }

theorem createClientLoaderData_meta_entry_witness :
    lookupKey sampleClientData.json ("loader-" ++ sampleBundle.name) =
      some (JsonEntry.metaEntry sampleBundle.name "client") :=
  (createClientLoaderData_meta_entry
    [("app", [("a/x/foo.js", sampleMod)])] sampleBundle
    (by decide) (by decide) (by decide) (by decide) (by decide)).1

/-- C10: with an absent loader-data argument, `_attachServerLoaderData`
leaves the bundle completely unchanged (in particular no `yui` field is
created on a bundle that had none), and `_attachClientLoaderData` also
leaves the bundle unchanged, returns an absent result, and issues no
artifact-write request (the second component of its result, the write
request handed to `api.writeFileInBundle`, is `none`). -/
theorem attach_absent_noop (bundle : Bundle) (destPath : String) :
    attachServerLoaderData bundle none = bundle ∧
    attachClientLoaderData bundle destPath none = (bundle, none) :=
  ⟨rfl, rfl⟩

theorem mem_map_fst_setKey {α : Type} :
    ∀ {l : List (String × α)} {x k : String} (v : α),
      x ∈ (setKey l k v).map Prod.fst → x ∈ l.map Prod.fst ∨ x = k
  | [], x, k, v, hx => by
      simp only [setKey, List.map_cons, List.map_nil, List.mem_singleton] at hx
      exact Or.inr hx
  | (k₀, v₀) :: t, x, k, v, hx => by
      by_cases hk : k₀ = k
      · simp only [setKey, hk, if_true, List.map_cons, List.mem_cons] at hx
        rcases hx with hx | hx
        · exact Or.inr hx
        · exact Or.inl (List.mem_cons_of_mem _ hx)
      · simp only [setKey, hk, if_false, List.map_cons, List.mem_cons] at hx
        rcases hx with hx | hx
        · exact Or.inl (by simp [hx])
        · rcases mem_map_fst_setKey v hx with h | h
          · exact Or.inl (List.mem_cons_of_mem _ h)
          · exact Or.inr h

theorem keysNodup_setKey {α : Type} :
    ∀ {l : List (String × α)} (k : String) (v : α),
      keysNodup l → keysNodup (setKey l k v)
  | [], k, v, _ => by simp [setKey, keysNodup]
  | (k₀, v₀) :: t, k, v, h => by
      have hcons : k₀ ∉ t.map Prod.fst ∧ (t.map Prod.fst).Nodup :=
        List.nodup_cons.mp h
      by_cases hk : k₀ = k
      · subst hk
        simpa [setKey, keysNodup] using h
      · simp only [setKey, hk, if_false, keysNodup, List.map_cons,
          List.nodup_cons]
        constructor
        · intro hmem
          rcases mem_map_fst_setKey v hmem with hh | hh
          · exact hcons.1 hh
          · exact hk hh
        · exact keysNodup_setKey k v hcons.2

theorem countP_setKey_self {α : Type} :
    ∀ {l : List (String × α)} (k : String) (v : α), keysNodup l →
      (setKey l k v).countP (fun e => decide (e.1 = k)) = 1
  | [], k, v, _ => by simp [setKey]
  | (k₀, v₀) :: t, k, v, h => by
      have hcons : k₀ ∉ t.map Prod.fst ∧ (t.map Prod.fst).Nodup :=
        List.nodup_cons.mp h
      by_cases hk : k₀ = k
      · subst hk
        rw [show setKey ((k₀, v₀) :: t) k₀ v = (k₀, v) :: t by simp [setKey]]
        rw [List.countP_cons]
        have hzero : t.countP (fun e => decide (e.1 = k₀)) = 0 := by
          refine List.countP_eq_zero.mpr ?_
          intro a ha
          simp only [decide_eq_true_eq]
          intro hEq
          exact hcons.1 (hEq ▸ List.mem_map_of_mem Prod.fst ha)
        simp [hzero]
      · simp only [setKey, hk, if_false]
        rw [List.countP_cons]
        have hp : (decide ((k₀, v₀).1 = k)) = false := by
          simpa using hk
        rw [countP_setKey_self k v hcons.2]
        simp [hp]

/-- C8: registering twice under the same `(bundleName, cacheKey)` pair
leaves the registry with exactly one record under that pair, equal to the
record of the later call; the operation is total and always succeeds.  The
hypothesis is the registry invariant that the bundle's cache keys are
duplicate-free. -/
theorem register_overwrite (st : Registry) (bn k : String) (m₁ m₂ : ModRec)
    (hnd : keysNodup ((lookupKey st bn).getD [])) :
    regGet (register (register st bn k m₁) bn k m₂) bn k = some m₂ ∧
    ((lookupKey (register (register st bn k m₁) bn k m₂) bn).getD []).countP
      (fun e => decide (e.1 = k)) = 1 := by
  have h1 : lookupKey (register st bn k m₁) bn =
      some (setKey ((lookupKey st bn).getD []) k m₁) :=
    lookupKey_setKey_self st bn _
  have h2 : (lookupKey (register st bn k m₁) bn).getD [] =
      setKey ((lookupKey st bn).getD []) k m₁ := by
    rw [h1]
    rfl
  have h3 : lookupKey (register (register st bn k m₁) bn k m₂) bn =
      some (setKey ((lookupKey (register st bn k m₁) bn).getD []) k m₂) :=
    lookupKey_setKey_self (register st bn k m₁) bn _
  constructor
  · show lookupKey
      ((lookupKey (register (register st bn k m₁) bn k m₂) bn).getD []) k =
      some m₂
    rw [h3]
    exact lookupKey_setKey_self _ k m₂
  · rw [h3]
    show (setKey ((lookupKey (register st bn k m₁) bn).getD []) k m₂).countP
      (fun e => decide (e.1 = k)) = 1
    rw [h2]
    exact countP_setKey_self k m₂ (keysNodup_setKey k m₁ hnd)

/-- A second module-metadata record, distinct from `sampleMod`. -/
def sampleMod2 : ModRec := { name := "bar", buildfile := "a/x/bar.js", builds := [] }

theorem register_overwrite_witness :
    regGet (register (register [] "app" "a/x/foo.js" sampleMod) "app"
      "a/x/foo.js" sampleMod2) "app" "a/x/foo.js" = some sampleMod2 ∧
    ((lookupKey (register (register [] "app" "a/x/foo.js" sampleMod) "app"
      "a/x/foo.js" sampleMod2) "app").getD []).countP
      (fun e => decide (e.1 = "a/x/foo.js")) = 1 :=
  register_overwrite [] "app" "a/x/foo.js" sampleMod sampleMod2 (by decide)

end LocatorYui
